import Mathlib

/-!
# ssm-parameter-store: the state-diffing engine

A shallow embedding of `src/lib/ParameterStates.go`.

* A Go `map[string]V` is a list of `(key, value)` entries.  The list order is the order in
  which one `range` loop visits the entries; `m[k]` is the value of the entry for `k`, or the
  zero value of `V` when there is none.  A Go map holds a key at most once (`NodupKeys`).
* A `*ParameterState` is an `Option ParameterState`, `none` being the nil pointer.
* Dereferencing a nil pointer panics; a function that can panic returns an `Option`, `none`
  being the panic.
* `buildFromSSMParameters` has no result in Go: it leaves the map in `*p`, or the run ends
  in a panic or in `Check`.  Its embedding returns the map, or the `BuildFailure` that ended
  the run.  The calls to the remote store are parameters of the embedding.
-/

namespace SsmParameterStore

/-! ## Data model -/

/-- Modelled from the spec: the struct `ParameterState` is declared outside
`ParameterStates.go`.  Its fields are the ones that file reads and writes: `Parameters`
(spec `values`, a `map[string]string`), `EncryptedKeys` (spec `encryptedKeys`, a `[]string`)
and `EncryptionKey` (spec `encryptionKeyId`, a `*string`). -/
structure ParameterState where
  Parameters : List (String × String)
  EncryptedKeys : List String
  EncryptionKey : Option String
deriving DecidableEq

/-- The type `ParameterStates`, a `map[string]*ParameterState`. -/
abbrev ParameterStates := List (String × Option ParameterState)

/-- Modelled from the spec: the change records are declared outside `ParameterStates.go`.
A Set change has the full key address, the new value, the previous value and an optional
encryption key id; a Delete change has the full key address only. -/
inductive Change where
  | Set (Key Value OldValue : String) (EncryptionKey : Option String)
  | Delete (Key : String)
deriving DecidableEq

/-- Modelled from the spec: the type `Diff` is declared outside `ParameterStates.go`; it is
an ordered sequence of changes. -/
abbrev Diff := List Change

/-- The second result of `diff`, the Go `error`; `none` is the nil error. -/
abbrev GoError := Option String

/-- Modelled from the spec: `AppendAddChange` is defined outside `ParameterStates.go`; it
appends one Set change to the sequence. -/
def AppendAddChange (diffs : Diff) (key value oldValue : String)
    (encryptionKey : Option String) : Diff :=
  diffs ++ [Change.Set key value oldValue encryptionKey]

/-- Modelled from the spec: `AppendDeleteChange` is defined outside `ParameterStates.go`; it
appends one Delete change to the sequence. -/
def AppendDeleteChange (diffs : Diff) (key : String) : Diff :=
  diffs ++ [Change.Delete key]

/-- Modelled from the spec: `stringInSlice` is defined outside `ParameterStates.go`; it tells
whether the string is an element of the slice (spec: "if `k` is in desired's encryptedKeys"). -/
def stringInSlice (a : String) (list : List String) : Bool :=
  list.any (fun b => decide (b = a))

/-! ## Go maps -/

/-- The entry of a map for a key, if the map has one. -/
def lookupKey {V : Type} (k : String) : List (String × V) → Option V
  | [] => none
  | (a, v) :: m => if a = k then some v else lookupKey k m

/-- The Go expression `m[path]` on a `map[string]*ParameterState`: nil when the map has no
entry for the path. -/
def groupAt (m : ParameterStates) (path : String) : Option ParameterState :=
  match lookupKey path m with
  | some g => g
  | none => none

/-- The Go expression `m[key]` on a `map[string]string`: the empty string when the map has
no entry for the key. -/
def valueAt (m : List (String × String)) (key : String) : String :=
  match lookupKey key m with
  | some v => v
  | none => ""

/-- A Go map holds a key at most once. -/
def NodupKeys {V : Type} (m : List (String × V)) : Prop :=
  (m.map Prod.fst).Nodup

instance {V : Type} (m : List (String × V)) : Decidable (NodupKeys m) :=
  inferInstanceAs (Decidable (m.map Prod.fst).Nodup)

/-- The list is a value of the map type: no path occurs twice, and within a group no key
occurs twice. -/
def IsMap (t : ParameterStates) : Prop :=
  NodupKeys t ∧ ∀ e ∈ t, ∀ ps, e.2 = some ps → NodupKeys ps.Parameters

instance (t : ParameterStates) : Decidable (IsMap t) :=
  inferInstanceAs (Decidable (_ ∧ _))

/-- No group of the map is the nil pointer: every path maps to a parameter group. -/
def NoNilGroup (t : ParameterStates) : Prop :=
  ∀ e ∈ t, e.2 ≠ none

instance (t : ParameterStates) : Decidable (NoNilGroup t) :=
  inferInstanceAs (Decidable (∀ e ∈ t, _))

/-- A parameter tree: a map from paths to parameter groups, none of them nil. -/
def IsTree (t : ParameterStates) : Prop :=
  IsMap t ∧ NoNilGroup t

instance (t : ParameterStates) : Decidable (IsTree t) :=
  inferInstanceAs (Decidable (_ ∧ _))

/-! ## `ParameterStates.diff` -/

/-- The body of the inner loop of the first pass (lines 55-72), for one `key, value` of the
group `ps` of the desired tree at `path`. -/
def diffSetKey (current : ParameterStates) (path : String) (ps : ParameterState)
    (diffs : Diff) (kv : String × String) : Diff :=
  let key := kv.1
  let value := kv.2
  let pathAndKey := path ++ "/" ++ key
  let encryptionKey : Option String :=
    if stringInSlice key ps.EncryptedKeys then ps.EncryptionKey else none
  match groupAt current path with
  | none => AppendAddChange diffs pathAndKey value "" encryptionKey
  | some cps =>
    if valueAt cps.Parameters key = "" then
      AppendAddChange diffs pathAndKey value "" encryptionKey
    else if value ≠ valueAt cps.Parameters key then
      AppendAddChange diffs pathAndKey value (valueAt cps.Parameters key) encryptionKey
    else diffs

/-- The body of the outer loop of the first pass (lines 53-74); `ps.Parameters` panics when
`ps` is nil. -/
def diffSetPath (current : ParameterStates) (diffs : Diff)
    (e : String × Option ParameterState) : Option Diff :=
  match e.2 with
  | none => none
  | some ps => some (ps.Parameters.foldl (diffSetKey current e.1 ps) diffs)

/-- The body of the inner loop of the second pass (lines 78-86), for one `key` of the group
of the current tree at `path`. -/
def diffDeleteKey (p : ParameterStates) (path : String) (diffs : Diff)
    (kv : String × String) : Diff :=
  let key := kv.1
  match groupAt p path with
  | none => AppendDeleteChange diffs (path ++ "/" ++ key)
  | some dps =>
    if valueAt dps.Parameters key = "" then
      AppendDeleteChange diffs (path ++ "/" ++ key)
    else diffs

/-- The body of the outer loop of the second pass (lines 76-88); `ps.Parameters` panics when
`ps` is nil. -/
def diffDeletePath (p : ParameterStates) (diffs : Diff)
    (e : String × Option ParameterState) : Option Diff :=
  match e.2 with
  | none => none
  | some ps => some (ps.Parameters.foldl (diffDeleteKey p e.1) diffs)

/-- The method `(p *ParameterStates) diff(current)`: the named results `diffs` and `err`
start at their zero values, the two passes append to `diffs`, and nothing assigns `err`. -/
def diff (p current : ParameterStates) : Option (Diff × GoError) := do
  let diffs : Diff := []
  let err : GoError := none
  let diffs ← p.foldlM (diffSetPath current) diffs
  let diffs ← current.foldlM (diffDeletePath p) diffs
  return (diffs, err)

/-! ## The iterations of `diff` and the origin of a change -/

/-- One iteration of an inner loop of `diff`: the loop variables `path, ps` of the outer
loop and `key, value` of the inner loop. -/
structure Iteration where
  path : String
  ps : ParameterState
  key : String
  value : String
deriving DecidableEq

/-- The iterations of the two nested loops over a map, in the order of the loops. -/
def iterations (t : ParameterStates) : List Iteration :=
  t.flatMap (fun e =>
    match e.2 with
    | none => []
    | some ps => ps.Parameters.map (fun kv => Iteration.mk e.1 ps kv.1 kv.2))

/-- The changes that one iteration of the first pass appends to `diffs`. -/
def setChanges (current : ParameterStates) (it : Iteration) : Diff :=
  diffSetKey current it.path it.ps [] (it.key, it.value)

/-- The changes that one iteration of the second pass appends to `diffs`. -/
def deleteChanges (p : ParameterStates) (it : Iteration) : Diff :=
  diffDeleteKey p it.path [] (it.key, it.value)

/-- A change with the loop variables `(path, key)` of the iteration that appended it. -/
abbrev Origin := (String × String) × Change

/-- The first pass over one path, recording for each appended change its iteration. -/
def originsSetPath (current : ParameterStates) (tr : List Origin)
    (e : String × Option ParameterState) : Option (List Origin) :=
  match e.2 with
  | none => none
  | some ps =>
    some (ps.Parameters.foldl
      (fun tr kv => tr ++ (diffSetKey current e.1 ps [] kv).map (Prod.mk (e.1, kv.1))) tr)

/-- The second pass over one path, recording for each appended change its iteration. -/
def originsDeletePath (p : ParameterStates) (tr : List Origin)
    (e : String × Option ParameterState) : Option (List Origin) :=
  match e.2 with
  | none => none
  | some ps =>
    some (ps.Parameters.foldl
      (fun tr kv => tr ++ (diffDeleteKey p e.1 [] kv).map (Prod.mk (e.1, kv.1))) tr)

/-- The run of `diff` with every change labelled by the `(path, key)` of the iteration that
appended it; erasing the labels gives the result of `diff`. -/
def diffOrigins (p current : ParameterStates) : Option (List Origin) := do
  let tr ← p.foldlM (originsSetPath current) []
  current.foldlM (originsDeletePath p) tr

/-! ## Vocabulary of the specification -/

/-- The address of a change. -/
def Change.address : Change → String
  | Change.Set key _ _ _ => key
  | Change.Delete key => key

/-- The change is a Set change. -/
def Change.isSet : Change → Bool
  | Change.Set _ _ _ _ => true
  | Change.Delete _ => false

/-- The full address `path/key`. -/
def address (path key : String) : String :=
  path ++ "/" ++ key

/-- The value of `key` under `path` in the tree, when the tree has a group at `path` and the
group has an entry for `key`. -/
def entryAt (t : ParameterStates) (path key : String) : Option String :=
  match groupAt t path with
  | none => none
  | some ps => lookupKey key ps.Parameters

/-- The value that the Go expression `t[path].Parameters[key]` reads behind a nil check of
`t[path]`: the empty string when the tree has no group at `path` or the group has no entry
for `key`. -/
def goValue (t : ParameterStates) (path key : String) : String :=
  match groupAt t path with
  | none => ""
  | some ps => valueAt ps.Parameters key

/-- No value of the tree is the empty string. -/
def NoEmptyValue (t : ParameterStates) : Prop :=
  ∀ it ∈ iterations t, it.value ≠ ""

instance (t : ParameterStates) : Decidable (NoEmptyValue t) :=
  inferInstanceAs (Decidable (∀ it ∈ iterations t, _))

/-- No key of the tree contains the separator `/`. -/
def NoSlashInKeys (t : ParameterStates) : Prop :=
  ∀ it ∈ iterations t, '/' ∉ it.key.toList

instance (t : ParameterStates) : Decidable (NoSlashInKeys t) :=
  inferInstanceAs (Decidable (∀ it ∈ iterations t, _))

/-- A flat store: the value held at each address, if any. -/
abbrev Store := String → Option String

/-- The flat store of a tree: the map `path/key -> value` over all its groups. -/
def flatStore (t : ParameterStates) : Store :=
  fun a => lookupKey a ((iterations t).map (fun it => (address it.path it.key, it.value)))

/-- Replay of one change: a Set writes its new value at its address, a Delete removes its
address. -/
def applyChange (s : Store) : Change → Store
  | Change.Set key value _ _ => fun a => if a = key then some value else s a
  | Change.Delete key => fun a => if a = key then none else s a

/-- What a replayed change leaves at its own address. -/
def Change.effect : Change → Option String
  | Change.Set _ value _ _ => some value
  | Change.Delete _ => none

/-- Replay of a sequence of changes, in order. -/
def replay (cs : Diff) (s : Store) : Store :=
  cs.foldl applyChange s

/-- The encryption key id that a Set for `key` of the group `ps` carries. -/
def encryptionKeyFor (ps : ParameterState) (key : String) : Option String :=
  if key ∈ ps.EncryptedKeys then ps.EncryptionKey else none

/-! ## Vocabulary of the claims on iteration order and metadata -/

/-- The tree with `key` removed from the group at `path`; the group itself is kept. -/
def removeKey (t : ParameterStates) (path key : String) : ParameterStates :=
  t.map (fun e =>
    (e.1, if e.1 = path then
        e.2.map (fun ps => { ps with Parameters := ps.Parameters.filter (fun kv => kv.1 ≠ key) })
      else e.2))

/-- The two groups are the same group, their keys visited in a possibly different order. -/
def ReorderedGroup (a b : Option ParameterState) : Prop :=
  match a, b with
  | none, none => True
  | some x, some y =>
    x.Parameters.Perm y.Parameters ∧ x.EncryptedKeys = y.EncryptedKeys ∧
      x.EncryptionKey = y.EncryptionKey
  | _, _ => False

/-- The two lists are the same map under two iteration orders: the paths of the first can be
permuted so that, path by path, the groups are the same up to the order of their keys. -/
def Reordered (t r : ParameterStates) : Prop :=
  ∃ m : ParameterStates, t.Perm m ∧
    List.Forall₂ (fun e f => e.1 = f.1 ∧ ReorderedGroup e.2 f.2) m r

/-- The two groups hold the same key -> value map, visited in the same order; their
`EncryptedKeys` and `EncryptionKey` are unrelated. -/
def SameValuesGroup (a b : Option ParameterState) : Prop :=
  match a, b with
  | none, none => True
  | some x, some y => x.Parameters = y.Parameters
  | _, _ => False

/-- The two trees hold the same paths and the same key -> value maps, visited in the same
order; only the encryption metadata of their groups may differ. -/
def SameValuesInOrder (t r : ParameterStates) : Prop :=
  List.Forall₂ (fun e f => e.1 = f.1 ∧ SameValuesGroup e.2 f.2) t r

/-- What `diff` reads of an iteration: its path, key and value, and the encryption key id
that a Set for its key carries. -/
def Iteration.summary (it : Iteration) : String × String × String × Option String :=
  (it.path, it.key, it.value, encryptionKeyFor it.ps it.key)

/-- The changes of an iteration of the first pass, from what `diff` reads of it. -/
def setChangesOf (current : ParameterStates) (s : String × String × String × Option String) :
    Diff :=
  if goValue current s.1 s.2.1 = "" ∨ s.2.2.1 ≠ goValue current s.1 s.2.1 then
    [Change.Set (address s.1 s.2.1) s.2.2.1 (goValue current s.1 s.2.1) s.2.2.2]
  else []

/-- The changes of an iteration of the second pass, from what `diff` reads of it. -/
def deleteChangesOf (p : ParameterStates) (s : String × String × String × Option String) :
    Diff :=
  if goValue p s.1 s.2.1 = "" then [Change.Delete (address s.1 s.2.1)] else []

/-! ## `ParameterStates.buildFromSSMParameters` -/

/-- Modelled from the spec: a raw entry, the fields of an `ssm.Parameter` that
`buildFromSSMParameters` reads: `Name` (the full address), `Value`, and `Type` (here `Type_`), which
is `"SecureString"` for a secret. -/
structure Parameter where
  Name : String
  Value : String
  Type_ : String
deriving DecidableEq

/-- The ways in which `buildFromSSMParameters` stops without a tree. -/
inductive BuildFailure where
  | invalidAddress
  | nilDereference
  | checkFailed
  | indexOutOfRange
deriving DecidableEq

/-- The characters before and after the last `/` of a string, if it has one. -/
def splitLastSlash : List Char → Option (List Char × List Char)
  | [] => none
  | c :: cs =>
    match splitLastSlash cs with
    | some (path, key) => some (c :: path, key)
    | none => if c = '/' then some ([], cs) else none

/-- Modelled from the spec: `pathAndKey` is defined outside `ParameterStates.go`; the path is
everything before the final `/` and the key is the final segment.  An address with no `/` is
invalid input, for which the function has no result. -/
def pathAndKey (name : String) : Option (String × String) :=
  match splitLastSlash name.toList with
  | some (path, key) => some (String.mk path, String.mk key)
  | none => none

/-- The Go assignment `m[k] = v` on a map: the entry for `k` is replaced where it stands, or
a new entry is added. -/
def mapSet {V : Type} (m : List (String × V)) (k : String) (v : V) : List (String × V) :=
  match lookupKey k m with
  | some _ => m.map (fun e => if e.1 = k then (k, v) else e)
  | none => m ++ [(k, v)]

/-- The body of the loop over `ssmParams` (lines 105-114): the group of the path is created
when the map has no entry for it, the value is stored under the key, and the key of a
`SecureString` is appended to `EncryptedKeys`.  The `Parameters` of a group is a map that is
not nil, as it is in every group that this loop creates. -/
def mergeParameter (p : ParameterStates) (parameter : Parameter) :
    Except BuildFailure ParameterStates :=
  match pathAndKey parameter.Name with
  | none => Except.error BuildFailure.invalidAddress
  | some (path, key) =>
    let p : ParameterStates :=
      match lookupKey path p with
      | some _ => p
      | none => mapSet p path (some ⟨[], [], none⟩)
    match groupAt p path with
    | none => Except.error BuildFailure.nilDereference
    | some ps =>
      let ps : ParameterState :=
        { ps with Parameters := mapSet ps.Parameters key parameter.Value }
      let ps : ParameterState :=
        if parameter.Type_ = "SecureString" then
          { ps with EncryptedKeys := ps.EncryptedKeys ++ [key] }
        else ps
      Except.ok (mapSet p path (some ps))

/-- The loop over `ssmParams` (lines 104-115). -/
def mergeParameters (p : ParameterStates) : List Parameter → Except BuildFailure ParameterStates
  | [] => Except.ok p
  | parameter :: rest =>
    match mergeParameter p parameter with
    | Except.error f => Except.error f
    | Except.ok q => mergeParameters q rest

/-- Modelled from the spec: `Check` is defined outside `ParameterStates.go`; an error that is
not nil ends the run (spec: "error propagation via process termination in the original"). -/
def Check (err : GoError) : Except BuildFailure Unit :=
  match err with
  | none => Except.ok ()
  | some _ => Except.error BuildFailure.checkFailed

/-- The body of the loop over the groups (lines 118-130).  `describe` is the call
`svc.DescribeParameters` with the filter `Name Equals` the given address: it returns the
`KeyId` of each parameter of its output, a `*string` that may be nil, and its error.
`o.Parameters[0]` on an output without parameters is an index out of range; the `KeyId` of
the first parameter is copied into `EncryptionKey` as it is, nil included. -/
def resolveGroup (describe : String → List (Option String) × GoError)
    (e : String × Option ParameterState) :
    Except BuildFailure (String × Option ParameterState) :=
  match e.2 with
  | none => Except.error BuildFailure.nilDereference
  | some ps =>
    match ps.EncryptedKeys with
    | [] => Except.ok e
    | first :: _ =>
      let result := describe (e.1 ++ "/" ++ first)
      match Check result.2 with
      | Except.error f => Except.error f
      | Except.ok _ =>
        match result.1 with
        | [] => Except.error BuildFailure.indexOutOfRange
        | keyId :: _ => Except.ok (e.1, some { ps with EncryptionKey := keyId })

/-- The loop over the groups (lines 117-131), in the order of the map. -/
def resolveGroups (describe : String → List (Option String) × GoError) :
    ParameterStates → Except BuildFailure ParameterStates
  | [] => Except.ok []
  | e :: rest =>
    match resolveGroup describe e with
    | Except.error f => Except.error f
    | Except.ok e' =>
      match resolveGroups describe rest with
      | Except.error f => Except.error f
      | Except.ok rest' => Except.ok (e' :: rest')

/-- The method `(p *ParameterStates) buildFromSSMParameters(paths)`, returning the map that
`*p` holds at the end.  `getSSMParameters`, defined outside `ParameterStates.go`, is the
fetch of the raw entries of a path, and `describe` the lookup of key ids; the nil map and the
empty map are both the empty list. -/
def buildFromSSMParameters (getSSMParameters : String → List Parameter)
    (describe : String → List (Option String) × GoError) (p : ParameterStates) (paths : List String) :
    Except BuildFailure ParameterStates :=
  let ssmParams : List Parameter := paths.flatMap getSSMParameters
  match mergeParameters p ssmParams with
  | Except.error f => Except.error f
  | Except.ok q => resolveGroups describe q

/-- The raw entry is a secret. -/
def Parameter.isSecret (e : Parameter) : Bool :=
  decide (e.Type_ = "SecureString")

/-- The triple (address, value, isSecret) of a raw entry. -/
def Parameter.triple (e : Parameter) : String × String × Bool :=
  (e.Name, e.Value, e.isSecret)

/-- The tree flattened back to triples (address `path/key`, `values[key]`, `key` is in
`encryptedKeys`). -/
def flatten (t : ParameterStates) : List (String × String × Bool) :=
  (iterations t).map (fun it =>
    (address it.path it.key, it.value, decide (it.key ∈ it.ps.EncryptedKeys)))

/-- The keys of the secret entries for a path, in input order. -/
def secretKeys (entries : List Parameter) (path : String) : List String :=
  entries.filterMap (fun e =>
    match pathAndKey e.Name with
    | some (q, key) => if q = path ∧ e.isSecret = true then some key else none
    | none => none)

/-- Every address of the list contains a `/`. -/
def ValidAddresses (entries : List Parameter) : Prop :=
  ∀ e ∈ entries, '/' ∈ e.Name.toList

instance (entries : List Parameter) : Decidable (ValidAddresses entries) :=
  inferInstanceAs (Decidable (∀ e ∈ entries, _))

/-- What the loop over `ssmParams` does to the group at `path` when it merges one raw entry:
an entry of another path leaves it as it is. -/
def mergeGroup (path : String) (g : Option ParameterState) (e : Parameter) :
    Option ParameterState :=
  match pathAndKey e.Name with
  | none => g
  | some (q, key) =>
    if q = path then
      let ps : ParameterState := g.getD ⟨[], [], none⟩
      let ps : ParameterState := { ps with Parameters := mapSet ps.Parameters key e.Value }
      some (if e.Type_ = "SecureString" then
          { ps with EncryptedKeys := ps.EncryptedKeys ++ [key] }
        else ps)
    else g

/-- The `EncryptedKeys` of a group, none for an absent group. -/
def groupKeys (g : Option ParameterState) : List String :=
  match g with
  | some ps => ps.EncryptedKeys
  | none => []

/-- The `EncryptionKey` of a group. -/
def groupKeyId (g : Option ParameterState) : Option String :=
  match g with
  | some ps => ps.EncryptionKey
  | none => none

/-- The entry of a group for a key. -/
def groupValue (g : Option ParameterState) (key : String) : Option String :=
  match g with
  | some ps => lookupKey key ps.Parameters
  | none => none

/-- The value of the last raw entry with the address `path/key`, or `init` when the list has
no such entry. -/
def lastValue (entries : List Parameter) (path key : String) (init : Option String) :
    Option String :=
  entries.foldl (fun acc e => if pathAndKey e.Name = some (path, key) then some e.Value else acc)
    init

/-- What the loop over the groups leaves of the group `g` at `path` when it goes through: the
values and `EncryptedKeys` as they were, and as `EncryptionKey` the `KeyId` of the first
parameter that `describe` returns for the address of the first encrypted key, if the group
has one. -/
def Resolved (describe : String → List (Option String) × GoError) (path : String)
    (g r : Option ParameterState) : Prop :=
  ∃ ps rs, g = some ps ∧ r = some rs ∧ rs.Parameters = ps.Parameters ∧
    rs.EncryptedKeys = ps.EncryptedKeys ∧
    match ps.EncryptedKeys with
    | [] => rs.EncryptionKey = ps.EncryptionKey
    | first :: _ =>
      ∃ keyId rest, describe (address path first) = (keyId :: rest, none) ∧
        rs.EncryptionKey = keyId

/-! ## Go maps: lookups -/

theorem lookupKey_mem {V : Type} {k : String} {v : V} :
    ∀ {m : List (String × V)}, lookupKey k m = some v → (k, v) ∈ m
  | [], h => by simp [lookupKey] at h
  | (a, w) :: m, h => by
    by_cases hak : a = k
    · simp [lookupKey, hak] at h
      simp [hak, h]
    · simp only [lookupKey, hak, if_false] at h
      exact List.mem_cons_of_mem _ (lookupKey_mem h)

theorem lookupKey_of_mem {V : Type} {k : String} {v : V} :
    ∀ {m : List (String × V)}, NodupKeys m → (k, v) ∈ m → lookupKey k m = some v
  | [], _, h => by simp at h
  | (a, w) :: m, hnd, h => by
    have hnd' : a ∉ m.map Prod.fst ∧ NodupKeys m := by
      simpa [NodupKeys] using hnd
    rcases List.mem_cons.1 h with h | h
    · cases h
      simp [lookupKey]
    · have hne : a ≠ k := by
        rintro rfl
        exact hnd'.1 (List.mem_map.2 ⟨(a, v), h, rfl⟩)
      simp only [lookupKey, hne, if_false]
      exact lookupKey_of_mem hnd'.2 h

theorem lookupKey_eq_none {V : Type} {k : String} :
    ∀ {m : List (String × V)}, lookupKey k m = none ↔ ∀ v, (k, v) ∉ m
  | [] => by simp [lookupKey]
  | (a, w) :: m => by
    by_cases hak : a = k
    · subst hak
      simp only [lookupKey, if_true]
      constructor
      · intro h; cases h
      · intro h; exact absurd (List.mem_cons_self _ _) (h w)
    · simp only [lookupKey, hak, if_false, lookupKey_eq_none (m := m), List.mem_cons,
        Prod.mk.injEq, not_or, not_and]
      constructor
      · intro h v; exact ⟨fun hka => absurd hka.symm hak, h v⟩
      · intro h v; exact (h v).2

theorem groupAt_mem {t : ParameterStates} {p : String} {ps : ParameterState}
    (h : groupAt t p = some ps) : (p, some ps) ∈ t := by
  unfold groupAt at h
  split at h
  · rename_i g hg
    subst h
    exact lookupKey_mem hg
  · cases h

theorem groupAt_of_mem {t : ParameterStates} {p : String} {ps : ParameterState}
    (hm : NodupKeys t) (h : (p, some ps) ∈ t) : groupAt t p = some ps := by
  unfold groupAt
  rw [lookupKey_of_mem hm h]

theorem not_mem_of_groupAt_none {t : ParameterStates} {p : String} {ps : ParameterState}
    (hm : NodupKeys t) (h : groupAt t p = none) : (p, some ps) ∉ t := by
  intro hps
  rw [groupAt_of_mem hm hps] at h
  cases h

theorem groupAt_none_of_not_mem {t : ParameterStates} {p : String}
    (h : ∀ ps, (p, some ps) ∉ t) : groupAt t p = none := by
  cases hg : groupAt t p with
  | none => rfl
  | some ps => exact absurd (groupAt_mem hg) (h ps)

theorem valueAt_of_mem {m : List (String × String)} {k v : String}
    (hm : NodupKeys m) (h : (k, v) ∈ m) : valueAt m k = v := by
  unfold valueAt
  rw [lookupKey_of_mem hm h]

theorem valueAt_mem {m : List (String × String)} {k : String}
    (h : valueAt m k ≠ "") : (k, valueAt m k) ∈ m := by
  unfold valueAt at h ⊢
  split at h
  · rename_i v hv
    exact lookupKey_mem hv
  · exact absurd rfl h

theorem valueAt_of_not_mem {m : List (String × String)} {k : String}
    (h : ∀ v, (k, v) ∉ m) : valueAt m k = "" := by
  unfold valueAt
  rw [lookupKey_eq_none.2 h]

/-! ## The iterations of a map -/

theorem mem_iterations {t : ParameterStates} {it : Iteration} :
    it ∈ iterations t ↔ (it.path, some it.ps) ∈ t ∧ (it.key, it.value) ∈ it.ps.Parameters := by
  unfold iterations
  simp only [List.mem_flatMap]
  constructor
  · rintro ⟨⟨p, g⟩, he, hit⟩
    cases g with
    | none => simp at hit
    | some ps =>
      simp only [List.mem_map] at hit
      obtain ⟨⟨k, v⟩, hkv, rfl⟩ := hit
      exact ⟨he, hkv⟩
  · rintro ⟨he, hkv⟩
    refine ⟨(it.path, some it.ps), he, ?_⟩
    simp only [List.mem_map]
    exact ⟨(it.key, it.value), hkv, rfl⟩

theorem mem_iterations_mk {t : ParameterStates} {p k v : String} {ps : ParameterState} :
    Iteration.mk p ps k v ∈ iterations t ↔ (p, some ps) ∈ t ∧ (k, v) ∈ ps.Parameters :=
  mem_iterations

theorem iterations_nil : iterations [] = [] := rfl

/-- Two iterations of a map with the same path and key are the same iteration. -/
theorem iteration_unique {t : ParameterStates} (hm : IsMap t) {a b : Iteration}
    (ha : a ∈ iterations t) (hb : b ∈ iterations t) (hp : a.path = b.path)
    (hk : a.key = b.key) : a = b := by
  obtain ⟨p, ps, k, v⟩ := a
  obtain ⟨p', ps', k', v'⟩ := b
  obtain ⟨ha1, ha2⟩ := mem_iterations.1 ha
  obtain ⟨hb1, hb2⟩ := mem_iterations.1 hb
  simp only at hp hk ha1 ha2 hb1 hb2
  subst hp hk
  have h1 := groupAt_of_mem hm.1 ha1
  rw [groupAt_of_mem hm.1 hb1] at h1
  cases h1
  have hnd := hm.2 _ ha1 ps rfl
  have h3 := lookupKey_of_mem hnd ha2
  rw [lookupKey_of_mem hnd hb2] at h3
  cases h3
  rfl

/-! ## The loops of `diff` -/

theorem foldl_append_flatMap {α β : Type} (f : List β → α → List β) (g : α → List β)
    (h : ∀ acc x, f acc x = acc ++ g x) (l : List α) (acc : List β) :
    l.foldl f acc = acc ++ l.flatMap g := by
  induction l generalizing acc with
  | nil => simp
  | cons x l ih => simp [ih, h, List.append_assoc]

theorem foldlM_groups {β : Type} (step : List β → String × Option ParameterState → Option (List β))
    (g : String → ParameterState → List β)
    (h : ∀ acc p ps, step acc (p, some ps) = some (acc ++ g p ps))
    (t : ParameterStates) (hnn : NoNilGroup t) (acc : List β) :
    t.foldlM step acc =
      some (acc ++ t.flatMap (fun e => match e.2 with
        | none => []
        | some ps => g e.1 ps)) := by
  induction t generalizing acc with
  | nil => simp
  | cons e t ih =>
    obtain ⟨p, og⟩ := e
    have hnn' : NoNilGroup t := fun e he => hnn e (List.mem_cons_of_mem _ he)
    cases og with
    | none => exact absurd rfl (hnn (p, none) (List.mem_cons_self _ _))
    | some ps =>
      simp [List.foldlM_cons, h, ih hnn', List.append_assoc]

theorem diffSetKey_append (c : ParameterStates) (p : String) (ps : ParameterState)
    (diffs : Diff) (kv : String × String) :
    diffSetKey c p ps diffs kv = diffs ++ diffSetKey c p ps [] kv := by
  unfold diffSetKey AppendAddChange
  split
  · simp
  · dsimp only
    split_ifs <;> simp

theorem diffDeleteKey_append (d : ParameterStates) (p : String)
    (diffs : Diff) (kv : String × String) :
    diffDeleteKey d p diffs kv = diffs ++ diffDeleteKey d p [] kv := by
  unfold diffDeleteKey AppendDeleteChange
  split
  · simp
  · dsimp only
    split_ifs <;> simp

theorem flatMap_iterations {β : Type} (t : ParameterStates) (f : Iteration → List β) :
    (iterations t).flatMap f =
      t.flatMap (fun e => match e.2 with
        | none => []
        | some ps => ps.Parameters.flatMap (fun kv => f (Iteration.mk e.1 ps kv.1 kv.2))) := by
  unfold iterations
  rw [List.flatMap_assoc]
  congr 1
  funext e
  cases e.2 with
  | none => simp
  | some ps => simp [List.flatMap_map]

/-- The result of `diff` on two trees: the changes of the iterations of the first pass, then
those of the iterations of the second pass, and the nil error. -/
theorem diff_eq {d c : ParameterStates} (hd : NoNilGroup d) (hc : NoNilGroup c) :
    diff d c =
      some ((iterations d).flatMap (setChanges c) ++ (iterations c).flatMap (deleteChanges d),
        none) := by
  have h1 := foldlM_groups (diffSetPath c)
    (fun p ps => ps.Parameters.flatMap (fun kv => diffSetKey c p ps [] kv))
    (fun acc p ps => by
      simp only [diffSetPath]
      rw [foldl_append_flatMap _ _ (diffSetKey_append c p ps)]) d hd []
  have h2 := fun acc => foldlM_groups (diffDeletePath d)
    (fun p ps => ps.Parameters.flatMap (fun kv => diffDeleteKey d p [] kv))
    (fun acc p ps => by
      simp only [diffDeletePath]
      rw [foldl_append_flatMap _ _ (diffDeleteKey_append d p)]) c hc acc
  unfold diff
  simp only [h1, h2, List.nil_append, Option.bind_eq_bind, Option.some_bind, Option.pure_def,
    flatMap_iterations, setChanges, deleteChanges]

/-- The labelled run of `diff` on two trees. -/
theorem diffOrigins_eq {d c : ParameterStates} (hd : NoNilGroup d) (hc : NoNilGroup c) :
    diffOrigins d c =
      some ((iterations d).flatMap (fun it => (setChanges c it).map (Prod.mk (it.path, it.key)))
        ++ (iterations c).flatMap
          (fun it => (deleteChanges d it).map (Prod.mk (it.path, it.key)))) := by
  have h1 := foldlM_groups (originsSetPath c)
    (fun p ps => ps.Parameters.flatMap
      (fun kv => (diffSetKey c p ps [] kv).map (Prod.mk (p, kv.1))))
    (fun acc p ps => by
      simp only [originsSetPath]
      rw [foldl_append_flatMap _ _ (fun _ _ => rfl)]) d hd []
  have h2 := fun acc => foldlM_groups (originsDeletePath d)
    (fun p ps => ps.Parameters.flatMap
      (fun kv => (diffDeleteKey d p [] kv).map (Prod.mk (p, kv.1))))
    (fun acc p ps => by
      simp only [originsDeletePath]
      rw [foldl_append_flatMap _ _ (fun _ _ => rfl)]) c hc acc
  unfold diffOrigins
  simp only [h1, h2, List.nil_append, Option.bind_eq_bind, Option.some_bind,
    flatMap_iterations, setChanges, deleteChanges]

/-! ## What one iteration appends -/

theorem stringInSlice_iff (a : String) (l : List String) :
    stringInSlice a l = true ↔ a ∈ l := by
  simp [stringInSlice, List.any_eq_true]

theorem setChanges_eq (c : ParameterStates) (it : Iteration) :
    setChanges c it =
      if goValue c it.path it.key = "" ∨ it.value ≠ goValue c it.path it.key then
        [Change.Set (address it.path it.key) it.value (goValue c it.path it.key)
          (encryptionKeyFor it.ps it.key)]
      else [] := by
  have henc : (if stringInSlice it.key it.ps.EncryptedKeys = true then it.ps.EncryptionKey
      else none) = encryptionKeyFor it.ps it.key := by
    unfold encryptionKeyFor
    by_cases h : it.key ∈ it.ps.EncryptedKeys
    · simp [h, (stringInSlice_iff _ _).2 h]
    · have h' : ¬ stringInSlice it.key it.ps.EncryptedKeys = true :=
        fun hs => h ((stringInSlice_iff _ _).1 hs)
      simp [h, h']
  unfold setChanges diffSetKey goValue AppendAddChange address
  cases hg : groupAt c it.path with
  | none => simp [henc]
  | some cps =>
    dsimp only
    rw [henc]
    by_cases h1 : valueAt cps.Parameters it.key = ""
    · simp [h1]
    · by_cases h2 : it.value = valueAt cps.Parameters it.key
      · simp [h1, h2]
      · simp [h1, h2]

theorem deleteChanges_eq (d : ParameterStates) (it : Iteration) :
    deleteChanges d it =
      if goValue d it.path it.key = "" then [Change.Delete (address it.path it.key)]
      else [] := by
  unfold deleteChanges diffDeleteKey goValue AppendDeleteChange address
  cases hg : groupAt d it.path with
  | none => simp
  | some dps =>
    dsimp only
    by_cases h1 : valueAt dps.Parameters it.key = "" <;> simp [h1]

/-! ## Values of a tree -/

theorem goValue_eq (t : ParameterStates) (p k : String) :
    goValue t p k = (entryAt t p k).getD "" := by
  unfold goValue entryAt valueAt
  cases groupAt t p with
  | none => rfl
  | some ps =>
    dsimp only
    cases lookupKey k ps.Parameters <;> rfl

theorem entryAt_of_mem {t : ParameterStates} (hm : IsMap t) {it : Iteration}
    (h : it ∈ iterations t) : entryAt t it.path it.key = some it.value := by
  obtain ⟨h1, h2⟩ := mem_iterations.1 h
  unfold entryAt
  rw [groupAt_of_mem hm.1 h1]
  exact lookupKey_of_mem (hm.2 _ h1 _ rfl) h2

theorem mem_of_entryAt {t : ParameterStates} {p k v : String}
    (h : entryAt t p k = some v) : ∃ ps, Iteration.mk p ps k v ∈ iterations t := by
  unfold entryAt at h
  cases hg : groupAt t p with
  | none => rw [hg] at h; cases h
  | some ps =>
    rw [hg] at h
    exact ⟨ps, mem_iterations.2 ⟨groupAt_mem hg, lookupKey_mem h⟩⟩

theorem goValue_of_mem {t : ParameterStates} (hm : IsMap t) {it : Iteration}
    (h : it ∈ iterations t) : goValue t it.path it.key = it.value := by
  rw [goValue_eq, entryAt_of_mem hm h]
  rfl

theorem goValue_of_groupAt_none {t : ParameterStates} {p : String} (k : String)
    (h : groupAt t p = none) : goValue t p k = "" := by
  unfold goValue
  rw [h]

theorem goValue_of_groupAt {t : ParameterStates} {p : String} {ps : ParameterState}
    (k : String) (h : groupAt t p = some ps) : goValue t p k = valueAt ps.Parameters k := by
  unfold goValue
  rw [h]

/-! ## Iterations occur once -/

theorem nodup_iterations {t : ParameterStates} (hm : IsMap t) : (iterations t).Nodup := by
  unfold iterations
  rw [List.nodup_flatMap]
  constructor
  · rintro ⟨p, g⟩ he
    cases g with
    | none => exact List.nodup_nil
    | some ps =>
      have hnd : (ps.Parameters.map Prod.fst).Nodup := hm.2 _ he ps rfl
      have hnd' : ps.Parameters.Nodup := List.Nodup.of_map _ hnd
      refine hnd'.map_on ?_
      rintro ⟨k, v⟩ _ ⟨k', v'⟩ _ h
      cases h
      rfl
  · have hp : List.Pairwise (fun a b : String × Option ParameterState => a.1 ≠ b.1) t :=
      List.pairwise_map.1 hm.1
    refine hp.imp ?_
    rintro ⟨p, g⟩ ⟨p', g'⟩ hne
    simp only [Function.onFun]
    intro x hx hx'
    cases g with
    | none => simp at hx
    | some ps =>
      cases g' with
      | none => simp at hx'
      | some ps' =>
        simp only [List.mem_map] at hx hx'
        obtain ⟨kv, _, rfl⟩ := hx
        obtain ⟨kv', _, h⟩ := hx'
        simp only [Iteration.mk.injEq] at h
        exact hne h.1.symm

theorem flatMap_ite_eq {α β : Type} [DecidableEq α] (g : α → List β) (a : α) :
    ∀ l : List α, l.Nodup → a ∈ l → l.flatMap (fun x => if x = a then g x else []) = g a
  | [], _, h => by simp at h
  | x :: l, hnd, h => by
    obtain ⟨hx, hnd'⟩ := List.nodup_cons.1 hnd
    by_cases hxa : x = a
    · subst hxa
      have hl : l.flatMap (fun y => if y = x then g y else []) = [] := by
        rw [List.flatMap_eq_nil_iff]
        intro y hy
        have : y ≠ x := fun e => hx (e ▸ hy)
        simp [this]
      simp [hl]
    · have ha : a ∈ l := by
        rcases List.mem_cons.1 h with h | h
        · exact absurd h.symm hxa
        · exact h
      simp [hxa, flatMap_ite_eq g a l hnd' ha]

/-- The labelled changes of one iteration, among those of all iterations of a map. -/
theorem filter_origin_of_mem {t : ParameterStates} (hm : IsMap t) (f : Iteration → Diff)
    {it : Iteration} (h : it ∈ iterations t) (q : Change → Bool) :
    ((iterations t).flatMap (fun x => (f x).map (Prod.mk (x.path, x.key)))).filter
        (fun o => decide (o.1 = (it.path, it.key)) && q o.2)
      = ((f it).filter q).map (Prod.mk (it.path, it.key)) := by
  rw [List.filter_flatMap]
  have hfun : ∀ x ∈ iterations t,
      ((f x).map (Prod.mk (x.path, x.key))).filter
        (fun o => decide (o.1 = (it.path, it.key)) && q o.2)
      = if x = it then ((f x).filter q).map (Prod.mk (x.path, x.key)) else [] := by
    intro x hx
    by_cases hxi : x = it
    · subst hxi
      simp [List.filter_map, Function.comp_def]
    · have hne : ¬ (x.path = it.path ∧ x.key = it.key) :=
        fun e => hxi (iteration_unique hm hx h e.1 e.2)
      simp [List.filter_map, Function.comp_def, hxi, hne]
  rw [List.flatMap_def, List.map_congr_left hfun, ← List.flatMap_def,
    flatMap_ite_eq (fun x => ((f x).filter q).map (Prod.mk (x.path, x.key))) it _
      (nodup_iterations hm) h]

/-- No labelled change comes from a `(path, key)` that is not an iteration of the map. -/
theorem filter_origin_of_not_mem {t : ParameterStates} (f : Iteration → Diff)
    {p k : String} (h : ∀ it ∈ iterations t, ¬ (it.path = p ∧ it.key = k)) (q : Change → Bool) :
    ((iterations t).flatMap (fun x => (f x).map (Prod.mk (x.path, x.key)))).filter
        (fun o => decide (o.1 = (p, k)) && q o.2) = [] := by
  rw [List.filter_flatMap, List.flatMap_eq_nil_iff]
  intro x hx
  have hne := h x hx
  simp [List.filter_map, Function.comp_def, hne]

theorem nodup_pairs {t : ParameterStates} (hm : IsMap t) :
    ((iterations t).map (fun it => (it.path, it.key))).Nodup := by
  refine (nodup_iterations hm).map_on ?_
  intro a ha b hb h
  simp only [Prod.mk.injEq] at h
  exact iteration_unique hm ha hb h.1 h.2

theorem flatMap_eq_map_of_singleton {α β : Type} (f : α → List β) (g : α → β) :
    ∀ l : List α, (∀ x ∈ l, f x = [g x]) → l.flatMap f = l.map g
  | [], _ => rfl
  | x :: l, h => by
    rw [List.flatMap_cons, List.map_cons, h x (List.mem_cons_self _ _),
      flatMap_eq_map_of_singleton f g l (fun y hy => h y (List.mem_cons_of_mem _ hy))]
    rfl

/-! ## The labelled run and the result of `diff` -/

/-- On two trees the labelled run returns a list, and `diff` returns that list with the
labels erased. -/
theorem diff_eq_origins {d c : ParameterStates} (hd : NoNilGroup d) (hc : NoNilGroup c) :
    ∃ tr, diffOrigins d c = some tr ∧ diff d c = some (tr.map Prod.snd, none) ∧
      tr = (iterations d).flatMap (fun it => (setChanges c it).map (Prod.mk (it.path, it.key)))
        ++ (iterations c).flatMap
          (fun it => (deleteChanges d it).map (Prod.mk (it.path, it.key))) := by
  refine ⟨_, diffOrigins_eq hd hc, ?_, rfl⟩
  rw [diff_eq hd hc]
  simp [List.map_flatMap, Function.comp_def]

theorem filter_setChanges_isSet (c : ParameterStates) (it : Iteration) :
    (setChanges c it).filter Change.isSet = setChanges c it := by
  rw [setChanges_eq]
  split_ifs <;> simp [Change.isSet]

theorem filter_deleteChanges_isSet (d : ParameterStates) (it : Iteration) :
    (deleteChanges d it).filter Change.isSet = [] := by
  rw [deleteChanges_eq]
  split_ifs <;> simp [Change.isSet]

theorem filter_origin_eq {α : Type} (l : List ((String × String) × α)) (pk : String × String) :
    l.filter (fun o => decide (o.1 = pk)) = l.filter (fun o => decide (o.1 = pk) && true) := by
  simp

/-- The labelled changes of the first pass for an iteration of the desired tree. -/
theorem filter_sets_of_mem {d : ParameterStates} (c : ParameterStates) (hm : IsMap d)
    {it : Iteration} (h : it ∈ iterations d) :
    ((iterations d).flatMap
        (fun x => (setChanges c x).map (Prod.mk (x.path, x.key)))).filter
        (fun o => decide (o.1 = (it.path, it.key)))
      = (setChanges c it).map (Prod.mk (it.path, it.key)) := by
  rw [filter_origin_eq, filter_origin_of_mem hm (setChanges c) h (fun _ => true)]
  simp

/-- The labelled changes of the second pass for an iteration of the current tree. -/
theorem filter_deletes_of_mem {c : ParameterStates} (d : ParameterStates) (hm : IsMap c)
    {it : Iteration} (h : it ∈ iterations c) :
    ((iterations c).flatMap
        (fun x => (deleteChanges d x).map (Prod.mk (x.path, x.key)))).filter
        (fun o => decide (o.1 = (it.path, it.key)))
      = (deleteChanges d it).map (Prod.mk (it.path, it.key)) := by
  rw [filter_origin_eq, filter_origin_of_mem hm (deleteChanges d) h (fun _ => true)]
  simp

theorem filter_isSet_sets_of_mem {d : ParameterStates} (c : ParameterStates) (hm : IsMap d)
    {it : Iteration} (h : it ∈ iterations d) :
    ((iterations d).flatMap
        (fun x => (setChanges c x).map (Prod.mk (x.path, x.key)))).filter
        (fun o => decide (o.1 = (it.path, it.key)) && o.2.isSet)
      = (setChanges c it).map (Prod.mk (it.path, it.key)) := by
  rw [filter_origin_of_mem hm (setChanges c) h Change.isSet, filter_setChanges_isSet]

theorem filter_isSet_deletes (d c : ParameterStates) (pk : String × String) :
    ((iterations c).flatMap
        (fun x => (deleteChanges d x).map (Prod.mk (x.path, x.key)))).filter
        (fun o => decide (o.1 = pk) && o.2.isSet) = [] := by
  rw [List.filter_flatMap, List.flatMap_eq_nil_iff]
  intro x _
  rw [List.filter_map, List.map_eq_nil_iff, List.filter_eq_nil_iff]
  intro ch hch
  have : ch ∈ (deleteChanges d x).filter Change.isSet → False := by
    rw [filter_deleteChanges_isSet]; simp
  have hns : ch.isSet = false := by
    cases hs : ch.isSet with
    | false => rfl
    | true => exact absurd (List.mem_filter.2 ⟨hch, hs⟩) this
  simp [hns]

theorem filter_deletes_of_not_mem (d c : ParameterStates) {p k : String}
    (h : ∀ it ∈ iterations c, ¬ (it.path = p ∧ it.key = k)) :
    ((iterations c).flatMap
        (fun x => (deleteChanges d x).map (Prod.mk (x.path, x.key)))).filter
        (fun o => decide (o.1 = (p, k))) = [] := by
  rw [filter_origin_eq, filter_origin_of_not_mem (deleteChanges d) h (fun _ => true)]

theorem filter_sets_of_not_mem (d c : ParameterStates) {p k : String}
    (h : ∀ it ∈ iterations d, ¬ (it.path = p ∧ it.key = k)) :
    ((iterations d).flatMap
        (fun x => (setChanges c x).map (Prod.mk (x.path, x.key)))).filter
        (fun o => decide (o.1 = (p, k))) = [] := by
  rw [filter_origin_eq, filter_origin_of_not_mem (setChanges c) h (fun _ => true)]

/-- An iteration at a path of a map runs over the group that the map holds at that path. -/
theorem ps_of_mem_iterations {t : ParameterStates} (hm : IsMap t) {it : Iteration}
    (h : it ∈ iterations t) {ps : ParameterState} (hg : groupAt t it.path = some ps) :
    it.ps = ps := by
  have h1 := groupAt_of_mem hm.1 (mem_iterations.1 h).1
  rw [hg] at h1
  exact (Option.some.inj h1).symm

/-- A key whose value is non-empty and equal in the groups of both trees at a path has no
labelled change. -/
theorem no_change_of_equal {d c : ParameterStates} (hd : IsMap d) (hc : IsMap c)
    {p k v : String} {ps cps : ParameterState}
    (hdp : groupAt d p = some ps) (hcp : groupAt c p = some cps)
    (hkv : (k, v) ∈ ps.Parameters) (hkv' : (k, v) ∈ cps.Parameters) (hv : v ≠ "") :
    ((iterations d).flatMap (fun it => (setChanges c it).map (Prod.mk (it.path, it.key)))
        ++ (iterations c).flatMap
          (fun it => (deleteChanges d it).map (Prod.mk (it.path, it.key)))).filter
      (fun o => decide (o.1 = (p, k))) = [] := by
  have hitd : Iteration.mk p ps k v ∈ iterations d :=
    mem_iterations.2 ⟨groupAt_mem hdp, hkv⟩
  have hitc : Iteration.mk p cps k v ∈ iterations c :=
    mem_iterations.2 ⟨groupAt_mem hcp, hkv'⟩
  have hgc : goValue c p k = v := goValue_of_mem hc hitc
  have hgd : goValue d p k = v := goValue_of_mem hd hitd
  rw [List.filter_append, filter_sets_of_mem c hd hitd, filter_deletes_of_mem d hc hitc,
    setChanges_eq, deleteChanges_eq]
  simp [hgd, hgc, hv]

/-! ## Addresses -/

theorem append_cons_inj {α : Type} {a : α} :
    ∀ {l l' r r' : List α}, a ∉ r → a ∉ r' → l ++ a :: r = l' ++ a :: r' → l = l' ∧ r = r'
  | [], [], _, _, _, _, h => by
    simp only [List.nil_append, List.cons.injEq, true_and] at h
    exact ⟨rfl, h⟩
  | [], y :: l', r, r', hr, _, h => by
    simp only [List.nil_append, List.cons_append, List.cons.injEq] at h
    exact absurd (h.2 ▸ List.mem_append_right l' (List.mem_cons_self a r')) hr
  | x :: l, [], r, r', _, hr', h => by
    simp only [List.nil_append, List.cons_append, List.cons.injEq] at h
    exact absurd (h.2 ▸ List.mem_append_right l (List.mem_cons_self a r)) hr'
  | x :: l, y :: l', r, r', hr, hr', h => by
    simp only [List.cons_append, List.cons.injEq] at h
    obtain ⟨h1, h2⟩ := append_cons_inj hr hr' h.2
    exact ⟨by rw [h.1, h1], h2⟩

/-- An address determines its path and key when keys hold no `/`. -/
theorem address_inj {p k p' k' : String} (hk : '/' ∉ k.toList) (hk' : '/' ∉ k'.toList)
    (h : address p k = address p' k') : p = p' ∧ k = k' := by
  have hdata := congrArg String.data h
  simp only [address, String.data_append] at hdata
  rw [List.append_assoc, List.append_assoc, List.singleton_append,
    List.singleton_append] at hdata
  obtain ⟨h1, h2⟩ := append_cons_inj hk hk' hdata
  exact ⟨String.ext h1, String.ext h2⟩

/-! ## The flat store of a tree -/

theorem lookupKey_isSome_of_mem {V : Type} {k : String} {v : V} {m : List (String × V)}
    (h : (k, v) ∈ m) : ∃ w, lookupKey k m = some w := by
  cases hl : lookupKey k m with
  | none => exact absurd h (lookupKey_eq_none.1 hl v)
  | some w => exact ⟨w, rfl⟩

theorem flatStore_some {t : ParameterStates} {a v : String} (h : flatStore t a = some v) :
    ∃ it ∈ iterations t, address it.path it.key = a ∧ it.value = v := by
  have hm := lookupKey_mem h
  obtain ⟨it, hit, heq⟩ := List.mem_map.1 hm
  simp only [Prod.mk.injEq] at heq
  exact ⟨it, hit, heq.1, heq.2⟩

theorem flatStore_of_mem {t : ParameterStates} (hm : IsMap t) (hs : NoSlashInKeys t)
    {it : Iteration} (hit : it ∈ iterations t) :
    flatStore t (address it.path it.key) = some it.value := by
  have hmem : (address it.path it.key, it.value) ∈
      (iterations t).map (fun it => (address it.path it.key, it.value)) :=
    List.mem_map.2 ⟨it, hit, rfl⟩
  obtain ⟨w, hw⟩ := lookupKey_isSome_of_mem hmem
  obtain ⟨it', hit', ha, hv⟩ := flatStore_some hw
  obtain ⟨hp, hk⟩ := address_inj (hs _ hit') (hs _ hit) ha
  have := iteration_unique hm hit' hit hp hk
  subst this
  unfold flatStore
  rw [hw, hv]

theorem flatStore_none {t : ParameterStates} {a : String}
    (h : ∀ it ∈ iterations t, address it.path it.key ≠ a) : flatStore t a = none := by
  cases hf : flatStore t a with
  | none => rfl
  | some v =>
    obtain ⟨it, hit, ha, _⟩ := flatStore_some hf
    exact absurd ha (h it hit)

/-! ## Replay -/

theorem applyChange_address (s : Store) (ch : Change) :
    applyChange s ch ch.address = ch.effect := by
  cases ch <;> simp [applyChange, Change.address, Change.effect]

theorem applyChange_of_ne (s : Store) {ch : Change} {a : String} (h : ch.address ≠ a) :
    applyChange s ch a = s a := by
  cases ch <;> simp only [applyChange, Change.address] at h ⊢ <;> rw [if_neg (Ne.symm h)]

theorem replay_append (cs cs' : Diff) (s : Store) :
    replay (cs ++ cs') s = replay cs' (replay cs s) := by
  simp [replay, List.foldl_append]

/-- Replay leaves an address that no change names as it was. -/
theorem replay_of_not_mem {a : String} :
    ∀ (cs : Diff) (s : Store), (∀ ch ∈ cs, ch.address ≠ a) → replay cs s a = s a
  | [], _, _ => rfl
  | ch :: cs, s, h => by
    have ih := replay_of_not_mem cs (applyChange s ch)
      (fun x hx => h x (List.mem_cons_of_mem _ hx))
    simp only [replay, List.foldl_cons] at ih ⊢
    rw [ih, applyChange_of_ne s (h ch (List.mem_cons_self _ _))]

/-- Replay leaves at an address the effect that all the changes naming it share. -/
theorem replay_of_mem {a : String} {r : Option String} :
    ∀ (cs : Diff) (s : Store), (∀ ch ∈ cs, ch.address = a → ch.effect = r) →
      (∃ ch ∈ cs, ch.address = a) → replay cs s a = r
  | [], _, _, h => by
    obtain ⟨ch, hch, _⟩ := h
    simp at hch
  | ch :: cs, s, hall, hex => by
    have hall' : ∀ x ∈ cs, x.address = a → x.effect = r :=
      fun x hx => hall x (List.mem_cons_of_mem _ hx)
    by_cases hcs : ∃ x ∈ cs, x.address = a
    · have ih := replay_of_mem cs (applyChange s ch) hall' hcs
      simpa only [replay, List.foldl_cons] using ih
    · have hnone : ∀ x ∈ cs, x.address ≠ a := fun x hx hxa => hcs ⟨x, hx, hxa⟩
      have hch : ch.address = a := by
        obtain ⟨x, hx, hxa⟩ := hex
        rcases List.mem_cons.1 hx with rfl | hx
        · exact hxa
        · exact absurd hxa (hnone x hx)
      have h0 := replay_of_not_mem cs (applyChange s ch) hnone
      simp only [replay, List.foldl_cons] at h0 ⊢
      rw [h0, ← hch, applyChange_address]
      exact hall ch (List.mem_cons_self _ _) hch

/-! ## Replay correctness (C1) -/

theorem mem_sets {d c : ParameterStates} {ch : Change}
    (h : ch ∈ (iterations d).flatMap (setChanges c)) :
    ∃ it ∈ iterations d,
      (goValue c it.path it.key = "" ∨ it.value ≠ goValue c it.path it.key) ∧
      ch.address = address it.path it.key ∧ ch.effect = some it.value := by
  obtain ⟨it, hit, hch⟩ := List.mem_flatMap.1 h
  rw [setChanges_eq] at hch
  split_ifs at hch with hcond
  · rw [List.mem_singleton] at hch
    subst hch
    exact ⟨it, hit, hcond, rfl, rfl⟩
  · simp at hch

theorem mem_deletes {d c : ParameterStates} {ch : Change}
    (h : ch ∈ (iterations c).flatMap (deleteChanges d)) :
    ∃ it ∈ iterations c, goValue d it.path it.key = "" ∧
      ch.address = address it.path it.key ∧ ch.effect = none := by
  obtain ⟨it, hit, hch⟩ := List.mem_flatMap.1 h
  rw [deleteChanges_eq] at hch
  split_ifs at hch with hcond
  · rw [List.mem_singleton] at hch
    subst hch
    exact ⟨it, hit, hcond, rfl, rfl⟩
  · simp at hch

/-- C1: for trees in which no value is the empty string and no key contains `/`, replaying
the changes of `diff(desired, current)` in output order on the flat store of `current` (a Set
writes its new value at its address, a Delete removes its address) gives the flat store of
`desired`. -/
theorem diff_replay (d c : ParameterStates) (hd : IsTree d) (hc : IsTree c)
    (hned : NoEmptyValue d) (_hnec : NoEmptyValue c)
    (hsd : NoSlashInKeys d) (hsc : NoSlashInKeys c) :
    ∃ cs, diff d c = some (cs, none) ∧ replay cs (flatStore c) = flatStore d := by
  refine ⟨_, diff_eq hd.2 hc.2, ?_⟩
  funext a
  rw [replay_append]
  by_cases hda : ∃ it ∈ iterations d, address it.path it.key = a
  · obtain ⟨it, hit, rfl⟩ := hda
    have hgd : goValue d it.path it.key = it.value := goValue_of_mem hd.1 hit
    have hv : it.value ≠ "" := hned it hit
    -- an iteration of `desired` at this address is `it`
    have huniq : ∀ it' ∈ iterations d,
        address it'.path it'.key = address it.path it.key → it' = it := by
      intro it' hit' ha
      obtain ⟨hp, hk⟩ := address_inj (hsd _ hit') (hsd _ hit) ha
      exact iteration_unique hd.1 hit' hit hp hk
    -- no Delete names the address
    have hdel : ∀ ch ∈ (iterations c).flatMap (deleteChanges d),
        ch.address ≠ address it.path it.key := by
      intro ch hch ha
      obtain ⟨it', hit', hcond, ha', _⟩ := mem_deletes hch
      rw [ha'] at ha
      obtain ⟨hp, hk⟩ := address_inj (hsc _ hit') (hsd _ hit) ha
      rw [hp, hk, hgd] at hcond
      exact hv hcond
    rw [replay_of_not_mem _ _ hdel, flatStore_of_mem hd.1 hsd hit]
    by_cases hcond : goValue c it.path it.key = "" ∨ it.value ≠ goValue c it.path it.key
    · refine replay_of_mem _ _ ?_ ?_
      · intro ch hch ha
        obtain ⟨it', hit', _, ha', he⟩ := mem_sets hch
        rw [ha'] at ha
        rw [he, huniq it' hit' ha]
      · refine ⟨Change.Set (address it.path it.key) it.value (goValue c it.path it.key)
          (encryptionKeyFor it.ps it.key), List.mem_flatMap.2 ⟨it, hit, ?_⟩, rfl⟩
        rw [setChanges_eq, if_pos hcond]
        exact List.mem_singleton.2 rfl
    · push_neg at hcond
      obtain ⟨hne, heq⟩ := hcond
      have hnot : ∀ ch ∈ (iterations d).flatMap (setChanges c),
          ch.address ≠ address it.path it.key := by
        intro ch hch ha
        obtain ⟨it', hit', hcond', ha', _⟩ := mem_sets hch
        rw [ha'] at ha
        rw [huniq it' hit' ha] at hcond'
        rcases hcond' with h | h
        · exact hne h
        · exact h heq
      rw [replay_of_not_mem _ _ hnot]
      have hentry : entryAt c it.path it.key = some it.value := by
        have hg := goValue_eq c it.path it.key
        cases he : entryAt c it.path it.key with
        | none => rw [he] at hg; exact absurd hg hne
        | some w =>
          rw [he] at hg
          have : w = goValue c it.path it.key := hg.symm
          rw [this, ← heq]
      obtain ⟨cps, hitc⟩ := mem_of_entryAt hentry
      have hstore := flatStore_of_mem hc.1 hsc hitc
      exact hstore
  · push_neg at hda
    have hnot : ∀ ch ∈ (iterations d).flatMap (setChanges c), ch.address ≠ a := by
      intro ch hch ha
      obtain ⟨it', hit', _, ha', _⟩ := mem_sets hch
      exact hda it' hit' (ha' ▸ ha)
    rw [flatStore_none hda]
    by_cases hca : ∃ it ∈ iterations c, address it.path it.key = a
    · obtain ⟨it, hit, rfl⟩ := hca
      refine replay_of_mem _ _ ?_ ?_
      · intro ch hch _
        obtain ⟨_, _, _, _, he⟩ := mem_deletes hch
        exact he
      · have hgd : goValue d it.path it.key = "" := by
          rw [goValue_eq]
          cases he : entryAt d it.path it.key with
          | none => rfl
          | some v =>
            obtain ⟨ps, hitd⟩ := mem_of_entryAt he
            exact absurd rfl (hda (Iteration.mk it.path ps it.key v) hitd)
        refine ⟨Change.Delete (address it.path it.key),
          List.mem_flatMap.2 ⟨it, hit, ?_⟩, rfl⟩
        rw [deleteChanges_eq, if_pos hgd]
        exact List.mem_singleton.2 rfl
    · push_neg at hca
      have hnot' : ∀ ch ∈ (iterations c).flatMap (deleteChanges d), ch.address ≠ a := by
        intro ch hch ha
        obtain ⟨it', hit', _, ha', _⟩ := mem_deletes hch
        exact hca it' hit' (ha' ▸ ha)
      rw [replay_of_not_mem _ _ hnot', replay_of_not_mem _ _ hnot, flatStore_none hca]

theorem diff_replay_witness :
    diff [("/app", some ⟨[("db", "x2"), ("cache", "y"), ("new", "n")], ["db"], some "k"⟩)]
      [("/app", some ⟨[("db", "x1"), ("cache", "y")], [], none⟩),
       ("/old", some ⟨[("gone", "g")], [], none⟩)]
      = some ([Change.Set "/app/db" "x2" "x1" (some "k"), Change.Set "/app/new" "n" "" none,
          Change.Delete "/old/gone"], none) ∧
    ∃ cs, diff [("/app", some ⟨[("db", "x2"), ("cache", "y"), ("new", "n")], ["db"], some "k"⟩)]
        [("/app", some ⟨[("db", "x1"), ("cache", "y")], [], none⟩),
         ("/old", some ⟨[("gone", "g")], [], none⟩)] = some (cs, none) ∧
      replay cs (flatStore [("/app", some ⟨[("db", "x1"), ("cache", "y")], [], none⟩),
          ("/old", some ⟨[("gone", "g")], [], none⟩)])
        = flatStore
          [("/app", some ⟨[("db", "x2"), ("cache", "y"), ("new", "n")], ["db"], some "k"⟩)] :=
  ⟨by decide, diff_replay _ _ (by decide) (by decide) (by decide) (by decide)
    (by decide) (by decide)⟩

/-! ## Idempotence (C2) -/

/-- C2, as stated, fails: the tree `/app = {db: ""}` is a tree, and its diff against itself
is a Set followed by a Delete for `/app/db`, not the empty sequence. -/
theorem diff_self_counterexample :
    IsTree [("/app", some ⟨[("db", "")], [], none⟩)] ∧
    diff [("/app", some ⟨[("db", "")], [], none⟩)] [("/app", some ⟨[("db", "")], [], none⟩)]
      = some ([Change.Set "/app/db" "" "" none, Change.Delete "/app/db"], none) ∧
    diff [("/app", some ⟨[("db", "")], [], none⟩)] [("/app", some ⟨[("db", "")], [], none⟩)]
      ≠ some ([], none) := by
  decide

/-- C2, amended: for any tree `T` in which no value is the empty string, `diff(T, T)`
returns the empty sequence of changes (and the nil error). -/
theorem diff_self (T : ParameterStates) (hT : IsTree T) (hne : NoEmptyValue T) :
    diff T T = some ([], none) := by
  rw [diff_eq hT.2 hT.2]
  have h1 : (iterations T).flatMap (setChanges T) = [] := by
    rw [List.flatMap_eq_nil_iff]
    intro it hit
    rw [setChanges_eq, goValue_of_mem hT.1 hit]
    simp [hne it hit]
  have h2 : (iterations T).flatMap (deleteChanges T) = [] := by
    rw [List.flatMap_eq_nil_iff]
    intro it hit
    rw [deleteChanges_eq, goValue_of_mem hT.1 hit]
    simp [hne it hit]
  rw [h1, h2]
  rfl

theorem diff_self_witness :
    IsTree [("/app", some ⟨[("db", "x"), ("cache", "y")], ["db"], some "alias/k"⟩)] ∧
    NoEmptyValue [("/app", some ⟨[("db", "x"), ("cache", "y")], ["db"], some "alias/k"⟩)] ∧
    diff [("/app", some ⟨[("db", "x"), ("cache", "y")], ["db"], some "alias/k"⟩)]
      [("/app", some ⟨[("db", "x"), ("cache", "y")], ["db"], some "alias/k"⟩)]
      = some ([], none) :=
  ⟨by decide, by decide, diff_self _ (by decide) (by decide)⟩

/-! ## Minimality (C3) -/

theorem map_fst_flatMap_labelled {α β γ : Type} (f : α → List β) (g : α → γ) (q : α → Bool) :
    ∀ l : List α, (∀ x ∈ l, (f x).length = if q x then 1 else 0) →
      (l.flatMap (fun x => (f x).map (Prod.mk (g x)))).map Prod.fst = (l.filter q).map g
  | [], _ => rfl
  | x :: l, h => by
    have ih := map_fst_flatMap_labelled f g q l (fun y hy => h y (List.mem_cons_of_mem _ hy))
    have hx := h x (List.mem_cons_self _ _)
    rw [List.flatMap_cons, List.map_append, ih]
    cases hq : q x with
    | false =>
      rw [hq] at hx
      have : f x = [] := List.length_eq_zero.1 (by simpa using hx)
      simp [this, hq]
    | true =>
      rw [hq] at hx
      obtain ⟨b, hb⟩ := List.length_eq_one.1 (by simpa using hx)
      simp [hb, hq]

theorem entryAt_ne_empty {t : ParameterStates} (hne : NoEmptyValue t) {p k v : String}
    (h : entryAt t p k = some v) : v ≠ "" := by
  obtain ⟨ps, hit⟩ := mem_of_entryAt h
  exact hne _ hit

/-- In the first pass over trees without empty values, an iteration appends a change exactly
when the two trees disagree on its `(path, key)`. -/
theorem set_cond_iff {d c : ParameterStates} (hd : IsMap d)
    (hnec : NoEmptyValue c) {it : Iteration} (hit : it ∈ iterations d) :
    (goValue c it.path it.key = "" ∨ it.value ≠ goValue c it.path it.key) ↔
      entryAt d it.path it.key ≠ entryAt c it.path it.key := by
  rw [entryAt_of_mem hd hit, goValue_eq]
  cases hc : entryAt c it.path it.key with
  | none => simp
  | some w =>
    have hw : w ≠ "" := entryAt_ne_empty hnec hc
    simp [hw]

/-- In the second pass over trees without empty values, an iteration appends a change exactly
when the desired tree has no entry for its `(path, key)`. -/
theorem delete_cond_iff {d : ParameterStates} (hned : NoEmptyValue d) (p k : String) :
    goValue d p k = "" ↔ entryAt d p k = none := by
  rw [goValue_eq]
  cases hd : entryAt d p k with
  | none => simp
  | some v =>
    have hv : v ≠ "" := entryAt_ne_empty hned hd
    simp [hv]

/-- C3: on trees in which no value is the empty string, `diff(desired, current)` holds exactly
one change for each `(path, key)` on which the trees disagree (the key is under that path in
one tree only, or in both with different values) and none for a pair on which they agree: the
labels of its changes list the disagreeing pairs without repetition, every change carries the
address of its pair, and the length of the diff is the number of disagreeing pairs. -/
theorem diff_minimal (d c : ParameterStates) (hd : IsTree d) (hc : IsTree c)
    (hned : NoEmptyValue d) (hnec : NoEmptyValue c) :
    ∃ tr, diffOrigins d c = some tr ∧ diff d c = some (tr.map Prod.snd, none) ∧
      (tr.map Prod.fst).Nodup ∧
      (∀ p k, (p, k) ∈ tr.map Prod.fst ↔ entryAt d p k ≠ entryAt c p k) ∧
      (∀ o ∈ tr, o.2.address = address o.1.1 o.1.2) ∧
      (tr.map Prod.snd).length =
        Set.ncard {pk : String × String | entryAt d pk.1 pk.2 ≠ entryAt c pk.1 pk.2} := by
  obtain ⟨tr, h1, h2, htr⟩ := diff_eq_origins hd.2 hc.2
  have hlab : tr.map Prod.fst =
      ((iterations d).filter (fun it =>
          decide (goValue c it.path it.key = "" ∨ it.value ≠ goValue c it.path it.key))).map
        (fun it => (it.path, it.key))
      ++ ((iterations c).filter (fun it => decide (goValue d it.path it.key = ""))).map
        (fun it => (it.path, it.key)) := by
    rw [htr, List.map_append,
      map_fst_flatMap_labelled (setChanges c) (fun it => (it.path, it.key))
        (fun it => decide (goValue c it.path it.key = "" ∨ it.value ≠ goValue c it.path it.key)),
      map_fst_flatMap_labelled (deleteChanges d) (fun it => (it.path, it.key))
        (fun it => decide (goValue d it.path it.key = ""))]
    · intro it _
      rw [deleteChanges_eq]
      by_cases h : goValue d it.path it.key = "" <;> simp [h]
    · intro it _
      rw [setChanges_eq]
      by_cases h : goValue c it.path it.key = "" ∨ it.value ≠ goValue c it.path it.key
      · rw [if_pos h]; simp [h]
      · rw [if_neg h]; simp [h]
  have hmem : ∀ p k, (p, k) ∈ tr.map Prod.fst ↔ entryAt d p k ≠ entryAt c p k := by
    intro p k
    rw [hlab, List.mem_append, List.mem_map, List.mem_map]
    constructor
    · rintro (⟨it, hit, hpk⟩ | ⟨it, hit, hpk⟩)
      · obtain ⟨hit, hcond⟩ := List.mem_filter.1 hit
        cases hpk
        exact (set_cond_iff hd.1 hnec hit).1 (of_decide_eq_true hcond)
      · obtain ⟨hit, hcond⟩ := List.mem_filter.1 hit
        cases hpk
        rw [(delete_cond_iff hned _ _).1 (of_decide_eq_true hcond), entryAt_of_mem hc.1 hit]
        simp
    · intro hne
      cases hdv : entryAt d p k with
      | some v =>
        obtain ⟨ps, hit⟩ := mem_of_entryAt hdv
        refine Or.inl ⟨_, List.mem_filter.2 ⟨hit, decide_eq_true ?_⟩, rfl⟩
        exact (set_cond_iff hd.1 hnec hit).2 hne
      | none =>
        cases hcv : entryAt c p k with
        | none => rw [hdv, hcv] at hne; exact absurd rfl hne
        | some w =>
          obtain ⟨cps, hit⟩ := mem_of_entryAt hcv
          refine Or.inr ⟨_, List.mem_filter.2 ⟨hit, decide_eq_true ?_⟩, rfl⟩
          exact (delete_cond_iff hned p k).2 hdv
  have hnd : (tr.map Prod.fst).Nodup := by
    rw [hlab]
    refine List.Nodup.append ?_ ?_ ?_
    · exact (nodup_pairs hd.1).sublist ((List.filter_sublist _).map _)
    · exact (nodup_pairs hc.1).sublist ((List.filter_sublist _).map _)
    · intro pk h1 h2
      obtain ⟨it, hit, rfl⟩ := List.mem_map.1 h1
      obtain ⟨it', hit', hpk⟩ := List.mem_map.1 h2
      obtain ⟨hit, _⟩ := List.mem_filter.1 hit
      obtain ⟨hit', hcond⟩ := List.mem_filter.1 hit'
      have hnone := (delete_cond_iff hned _ _).1 (of_decide_eq_true hcond)
      simp only [Prod.mk.injEq] at hpk
      rw [hpk.1, hpk.2, entryAt_of_mem hd.1 hit] at hnone
      cases hnone
  refine ⟨tr, h1, h2, hnd, hmem, ?_, ?_⟩
  · intro o ho
    rw [htr] at ho
    rcases List.mem_append.1 ho with ho | ho
    · obtain ⟨it, _, ho⟩ := List.mem_flatMap.1 ho
      rw [setChanges_eq] at ho
      split_ifs at ho
      · simp only [List.map_cons, List.map_nil, List.mem_singleton] at ho
        subst ho
        rfl
      · simp at ho
    · obtain ⟨it, _, ho⟩ := List.mem_flatMap.1 ho
      rw [deleteChanges_eq] at ho
      split_ifs at ho
      · simp only [List.map_cons, List.map_nil, List.mem_singleton] at ho
        subst ho
        rfl
      · simp at ho
  · have hset : {pk : String × String | entryAt d pk.1 pk.2 ≠ entryAt c pk.1 pk.2}
        = ↑(tr.map Prod.fst).toFinset := by
      ext ⟨p, k⟩
      simp only [Set.mem_setOf_eq, Finset.mem_coe, List.mem_toFinset]
      exact (hmem p k).symm
    rw [hset, Set.ncard_coe_Finset, List.toFinset_card_of_nodup hnd]
    simp

theorem diff_minimal_witness :
    diff [("/app", some ⟨[("db", "x2"), ("cache", "y"), ("new", "n")], [], none⟩)]
      [("/app", some ⟨[("db", "x1"), ("cache", "y"), ("old", "o")], [], none⟩)]
      = some ([Change.Set "/app/db" "x2" "x1" none, Change.Set "/app/new" "n" "" none,
          Change.Delete "/app/old"], none) ∧
    ∃ tr, diffOrigins [("/app", some ⟨[("db", "x2"), ("cache", "y"), ("new", "n")], [], none⟩)]
        [("/app", some ⟨[("db", "x1"), ("cache", "y"), ("old", "o")], [], none⟩)] = some tr ∧
      (tr.map Prod.fst).Nodup ∧
      (tr.map Prod.snd).length =
        Set.ncard {pk : String × String |
          entryAt [("/app", some ⟨[("db", "x2"), ("cache", "y"), ("new", "n")], [], none⟩)]
              pk.1 pk.2
            ≠ entryAt [("/app", some ⟨[("db", "x1"), ("cache", "y"), ("old", "o")], [], none⟩)]
              pk.1 pk.2} := by
  refine ⟨by decide, ?_⟩
  obtain ⟨tr, h1, _, h3, _, _, h6⟩ :=
    diff_minimal [("/app", some ⟨[("db", "x2"), ("cache", "y"), ("new", "n")], [], none⟩)]
      [("/app", some ⟨[("db", "x1"), ("cache", "y"), ("old", "o")], [], none⟩)]
      (by decide) (by decide) (by decide) (by decide)
  exact ⟨tr, h1, h3, h6⟩

/-! ## Add on missing path (C4) -/

/-- C4: when the current tree has no group at path `p`, every key `k` with value `v` of the
desired group at `p` yields in `diff(desired, current)` the Set change with address `p/k`,
new value `v` and previous value `""`; and when the current tree is empty the diff is exactly
one such Set for each (path, key) pair of the desired tree, each pair being listed once. -/
theorem add_on_missing_path (d c : ParameterStates) (hd : IsTree d) (hc : IsTree c) :
    (∀ p ps k v, groupAt c p = none → groupAt d p = some ps → (k, v) ∈ ps.Parameters →
      ∃ cs, diff d c = some (cs, none) ∧
        Change.Set (address p k) v "" (encryptionKeyFor ps k) ∈ cs) ∧
    (c = [] →
      diff d c = some ((iterations d).map (fun it =>
        Change.Set (address it.path it.key) it.value "" (encryptionKeyFor it.ps it.key)), none)
      ∧ ((iterations d).map (fun it => (it.path, it.key))).Nodup) := by
  constructor
  · intro p ps k v hcp hdp hkv
    refine ⟨_, diff_eq hd.2 hc.2, ?_⟩
    have hit : Iteration.mk p ps k v ∈ iterations d :=
      mem_iterations.2 ⟨groupAt_mem hdp, hkv⟩
    refine List.mem_append_left _ (List.mem_flatMap.2 ⟨_, hit, ?_⟩)
    rw [setChanges_eq]
    simp [goValue_of_groupAt_none k hcp]
  · rintro rfl
    refine ⟨?_, nodup_pairs hd.1⟩
    rw [diff_eq hd.2 hc.2, iterations_nil, List.flatMap_nil, List.append_nil]
    rw [flatMap_eq_map_of_singleton]
    intro it _
    rw [setChanges_eq]
    simp [goValue, groupAt, lookupKey]

theorem add_on_missing_path_witness :
    IsTree [("/app", some ⟨[("db", "x")], [], none⟩)] ∧ IsTree [] ∧
    diff [("/app", some ⟨[("db", "x")], [], none⟩)] []
      = some ([Change.Set "/app/db" "x" "" none], none) :=
  ⟨by decide, by decide,
    ((add_on_missing_path [("/app", some ⟨[("db", "x")], [], none⟩)] []
      (by decide) (by decide)).2 rfl).1⟩

/-! ## Add on missing key (C5) -/

/-- C5, as stated, fails: with desired `/app = {db: ""}` and current `/app = {db: ""}` both
trees have a group at `/app`, `db` is a key of the desired group and the current group has no
value for it, yet `diff` holds two changes for `(/app, db)`: a Set and a Delete. -/
theorem add_on_missing_key_counterexample :
    IsTree [("/app", some ⟨[("db", "")], [], none⟩)] ∧
    groupAt [("/app", some ⟨[("db", "")], [], none⟩)] "/app" = some ⟨[("db", "")], [], none⟩ ∧
    ("db", "") ∈ (ParameterState.mk [("db", "")] [] none).Parameters ∧
    valueAt (ParameterState.mk [("db", "")] [] none).Parameters "db" = "" ∧
    diffOrigins [("/app", some ⟨[("db", "")], [], none⟩)] [("/app", some ⟨[("db", "")], [], none⟩)]
      = some [(("/app", "db"), Change.Set "/app/db" "" "" none),
          (("/app", "db"), Change.Delete "/app/db")] ∧
    diff [("/app", some ⟨[("db", "")], [], none⟩)] [("/app", some ⟨[("db", "")], [], none⟩)]
      = some ([Change.Set "/app/db" "" "" none, Change.Delete "/app/db"], none) := by
  decide

/-- C5, amended: when both trees have a group at path `p`, a key `k` with value `v` of the
desired group for which the current group has no value (`k` absent, or mapped to `""`) yields
exactly one Set change for `(p, k)`, the Set with address `p/k`, new value `v` and previous
value `""`; that Set is the only change for `(p, k)` when `v` is non-empty or `k` is absent
from the current group, and it is followed by a Delete for `p/k` when `v` is `""` and the
current group maps `k` to `""`.  A key of `p` whose value is non-empty and equal in both trees
yields no change. -/
theorem add_on_missing_key (d c : ParameterStates) (hd : IsTree d) (hc : IsTree c)
    (p : String) (ps cps : ParameterState)
    (hdp : groupAt d p = some ps) (hcp : groupAt c p = some cps) :
    ∃ tr, diffOrigins d c = some tr ∧ diff d c = some (tr.map Prod.snd, none) ∧
      (∀ k v, (k, v) ∈ ps.Parameters → valueAt cps.Parameters k = "" →
        tr.filter (fun o => decide (o.1 = (p, k)) && o.2.isSet)
          = [((p, k), Change.Set (address p k) v "" (encryptionKeyFor ps k))] ∧
        (v ≠ "" ∨ (∀ w, (k, w) ∉ cps.Parameters) →
          tr.filter (fun o => decide (o.1 = (p, k)))
            = [((p, k), Change.Set (address p k) v "" (encryptionKeyFor ps k))]) ∧
        (v = "" → (k, "") ∈ cps.Parameters →
          tr.filter (fun o => decide (o.1 = (p, k)))
            = [((p, k), Change.Set (address p k) v "" (encryptionKeyFor ps k)),
                ((p, k), Change.Delete (address p k))])) ∧
      (∀ k v, (k, v) ∈ ps.Parameters → (k, v) ∈ cps.Parameters → v ≠ "" →
        tr.filter (fun o => decide (o.1 = (p, k))) = []) := by
  obtain ⟨tr, h1, h2, rfl⟩ := diff_eq_origins hd.2 hc.2
  refine ⟨_, h1, h2, ?_, ?_⟩
  · intro k v hkv hmiss
    have hitd : Iteration.mk p ps k v ∈ iterations d :=
      mem_iterations.2 ⟨groupAt_mem hdp, hkv⟩
    have hgc : goValue c p k = "" := by rw [goValue_of_groupAt k hcp, hmiss]
    have hgd : goValue d p k = v := goValue_of_mem hd.1 hitd
    have hs : setChanges c (Iteration.mk p ps k v)
        = [Change.Set (address p k) v "" (encryptionKeyFor ps k)] := by
      rw [setChanges_eq]
      simp [hgc]
    refine ⟨?_, ?_, ?_⟩
    · rw [List.filter_append, filter_isSet_sets_of_mem c hd.1 hitd, filter_isSet_deletes, hs]
      rfl
    · intro hor
      rw [List.filter_append, filter_sets_of_mem c hd.1 hitd, hs]
      by_cases hk : ∀ w, (k, w) ∉ cps.Parameters
      · rw [filter_deletes_of_not_mem d c]
        · rfl
        · rintro it hit ⟨hp, hkk⟩
          have hps : it.ps = cps := ps_of_mem_iterations hc.1 hit (hp ▸ hcp)
          have := (mem_iterations.1 hit).2
          rw [hps, hkk] at this
          exact hk _ this
      · have hv : v ≠ "" := hor.resolve_right hk
        push_neg at hk
        obtain ⟨w, hw⟩ := hk
        have hitc : Iteration.mk p cps k w ∈ iterations c :=
          mem_iterations.2 ⟨groupAt_mem hcp, hw⟩
        rw [filter_deletes_of_mem d hc.1 hitc, deleteChanges_eq]
        simp [hgd, hv]
    · intro hv hw
      have hitc : Iteration.mk p cps k "" ∈ iterations c :=
        mem_iterations.2 ⟨groupAt_mem hcp, hw⟩
      rw [List.filter_append, filter_sets_of_mem c hd.1 hitd, hs,
        filter_deletes_of_mem d hc.1 hitc, deleteChanges_eq]
      simp [hgd, hv]
  · intro k v hkv hkv' hv
    exact no_change_of_equal hd.1 hc.1 hdp hcp hkv hkv' hv

theorem add_on_missing_key_witness :
    diff [("/app", some ⟨[("db", "x"), ("cache", "y")], [], none⟩)]
        [("/app", some ⟨[("db", "x")], [], none⟩)]
      = some ([Change.Set "/app/cache" "y" "" none], none) ∧
    ∃ tr, diffOrigins [("/app", some ⟨[("db", "x"), ("cache", "y")], [], none⟩)]
          [("/app", some ⟨[("db", "x")], [], none⟩)] = some tr ∧
      tr.filter (fun o => decide (o.1 = ("/app", "cache")))
        = [(("/app", "cache"), Change.Set (address "/app" "cache") "y" ""
            (encryptionKeyFor ⟨[("db", "x"), ("cache", "y")], [], none⟩ "cache"))] ∧
      tr.filter (fun o => decide (o.1 = ("/app", "db"))) = [] := by
  refine ⟨by decide, ?_⟩
  obtain ⟨tr, h1, _, h3, h4⟩ :=
    add_on_missing_key [("/app", some ⟨[("db", "x"), ("cache", "y")], [], none⟩)]
      [("/app", some ⟨[("db", "x")], [], none⟩)] (by decide) (by decide)
      "/app" ⟨[("db", "x"), ("cache", "y")], [], none⟩ ⟨[("db", "x")], [], none⟩
      (by decide) (by decide)
  exact ⟨tr, h1, (h3 "cache" "y" (by decide) (by decide)).2.1 (Or.inl (by decide)),
    h4 "db" "x" (by decide) (by decide) (by decide)⟩

/-! ## Update on value change (C6) -/

/-- C6: when both trees have key `k` under path `p`, with desired value `v` and a non-empty
current value `w` different from `v`, the Set changes that `diff(desired, current)` holds for
`(p, k)` are exactly one, the Set with address `p/k`, new value `v` and previous value `w`;
and when `v` is non-empty that Set is the only change for `(p, k)`: no Delete is emitted. -/
theorem update_on_value_change (d c : ParameterStates) (hd : IsTree d) (hc : IsTree c)
    (p k v w : String) (ps cps : ParameterState)
    (hdp : groupAt d p = some ps) (hcp : groupAt c p = some cps)
    (hkv : (k, v) ∈ ps.Parameters) (hkw : (k, w) ∈ cps.Parameters)
    (hw : w ≠ "") (hvw : w ≠ v) :
    ∃ tr, diffOrigins d c = some tr ∧ diff d c = some (tr.map Prod.snd, none) ∧
      tr.filter (fun o => decide (o.1 = (p, k)) && o.2.isSet)
        = [((p, k), Change.Set (address p k) v w (encryptionKeyFor ps k))] ∧
      (v ≠ "" → tr.filter (fun o => decide (o.1 = (p, k)))
        = [((p, k), Change.Set (address p k) v w (encryptionKeyFor ps k))]) := by
  obtain ⟨tr, h1, h2, rfl⟩ := diff_eq_origins hd.2 hc.2
  refine ⟨_, h1, h2, ?_, ?_⟩
  all_goals
    have hitd : Iteration.mk p ps k v ∈ iterations d :=
      mem_iterations.2 ⟨groupAt_mem hdp, hkv⟩
    have hitc : Iteration.mk p cps k w ∈ iterations c :=
      mem_iterations.2 ⟨groupAt_mem hcp, hkw⟩
    have hgc : goValue c p k = w := goValue_of_mem hc.1 hitc
    have hgd : goValue d p k = v := goValue_of_mem hd.1 hitd
    have hs : setChanges c (Iteration.mk p ps k v)
        = [Change.Set (address p k) v w (encryptionKeyFor ps k)] := by
      rw [setChanges_eq]
      simp [hgc, hw]
      intro h; exact absurd h.symm hvw
  · rw [List.filter_append, filter_isSet_sets_of_mem c hd.1 hitd, filter_isSet_deletes, hs]
    rfl
  · intro hv
    rw [List.filter_append, filter_sets_of_mem c hd.1 hitd, filter_deletes_of_mem d hc.1 hitc,
      hs, deleteChanges_eq]
    simp [hgd, hv]

theorem update_on_value_change_witness :
    diff [("/app", some ⟨[("db", "x2")], [], none⟩)] [("/app", some ⟨[("db", "x1")], [], none⟩)]
      = some ([Change.Set "/app/db" "x2" "x1" none], none) ∧
    ∃ tr, diffOrigins [("/app", some ⟨[("db", "x2")], [], none⟩)]
        [("/app", some ⟨[("db", "x1")], [], none⟩)] = some tr ∧
      diff [("/app", some ⟨[("db", "x2")], [], none⟩)] [("/app", some ⟨[("db", "x1")], [], none⟩)]
        = some (tr.map Prod.snd, none) ∧
      tr.filter (fun o => decide (o.1 = ("/app", "db")) && o.2.isSet)
        = [(("/app", "db"), Change.Set (address "/app" "db") "x2" "x1"
            (encryptionKeyFor ⟨[("db", "x2")], [], none⟩ "db"))] ∧
      ("x2" ≠ "" → tr.filter (fun o => decide (o.1 = ("/app", "db")))
        = [(("/app", "db"), Change.Set (address "/app" "db") "x2" "x1"
            (encryptionKeyFor ⟨[("db", "x2")], [], none⟩ "db"))]) :=
  ⟨by decide,
    update_on_value_change [("/app", some ⟨[("db", "x2")], [], none⟩)]
      [("/app", some ⟨[("db", "x1")], [], none⟩)] (by decide) (by decide)
      "/app" "db" "x2" "x1" ⟨[("db", "x2")], [], none⟩ ⟨[("db", "x1")], [], none⟩
      (by decide) (by decide) (by decide) (by decide) (by decide) (by decide)⟩

/-! ## Delete on removed path (C7) -/

/-- C7: when the desired tree has no group at path `p`, every key `k` of the current group at
`p` yields in `diff(desired, current)` the Delete change with address `p/k`; and when the
desired tree is empty the diff is exactly one Delete for each (path, key) pair of the current
tree, each pair being listed once, and holds no Set. -/
theorem delete_on_removed_path (d c : ParameterStates) (hd : IsTree d) (hc : IsTree c) :
    (∀ p cps k w, groupAt d p = none → groupAt c p = some cps → (k, w) ∈ cps.Parameters →
      ∃ cs, diff d c = some (cs, none) ∧ Change.Delete (address p k) ∈ cs) ∧
    (d = [] →
      diff d c = some ((iterations c).map (fun it =>
        Change.Delete (address it.path it.key)), none)
      ∧ ((iterations c).map (fun it => (it.path, it.key))).Nodup) := by
  constructor
  · intro p cps k w hdp hcp hkw
    refine ⟨_, diff_eq hd.2 hc.2, ?_⟩
    have hit : Iteration.mk p cps k w ∈ iterations c :=
      mem_iterations.2 ⟨groupAt_mem hcp, hkw⟩
    refine List.mem_append_right _ (List.mem_flatMap.2 ⟨_, hit, ?_⟩)
    rw [deleteChanges_eq]
    simp [goValue_of_groupAt_none k hdp]
  · rintro rfl
    refine ⟨?_, nodup_pairs hc.1⟩
    rw [diff_eq hd.2 hc.2, iterations_nil, List.flatMap_nil, List.nil_append]
    rw [flatMap_eq_map_of_singleton]
    intro it _
    rw [deleteChanges_eq]
    simp [goValue, groupAt, lookupKey]

theorem delete_on_removed_path_witness :
    IsTree [] ∧ IsTree [("/app", some ⟨[("db", "x")], [], none⟩)] ∧
    diff [] [("/app", some ⟨[("db", "x")], [], none⟩)]
      = some ([Change.Delete "/app/db"], none) :=
  ⟨by decide, by decide,
    ((delete_on_removed_path [] [("/app", some ⟨[("db", "x")], [], none⟩)]
      (by decide) (by decide)).2 rfl).1⟩

/-! ## Delete on removed key (C8) -/

/-- C8: when both trees have a group at path `p`, every key `k` of the current group for
which the desired group has no value yields the Delete change with address `p/k`, and a key
whose value is non-empty and equal in both groups yields neither a Set nor a Delete. -/
theorem delete_on_removed_key (d c : ParameterStates) (hd : IsTree d) (hc : IsTree c)
    (p : String) (ps cps : ParameterState)
    (hdp : groupAt d p = some ps) (hcp : groupAt c p = some cps) :
    ∃ tr, diffOrigins d c = some tr ∧ diff d c = some (tr.map Prod.snd, none) ∧
      (∀ k w, (k, w) ∈ cps.Parameters → valueAt ps.Parameters k = "" →
        ((p, k), Change.Delete (address p k)) ∈ tr) ∧
      (∀ k v, (k, v) ∈ ps.Parameters → (k, v) ∈ cps.Parameters → v ≠ "" →
        tr.filter (fun o => decide (o.1 = (p, k))) = []) := by
  obtain ⟨tr, h1, h2, rfl⟩ := diff_eq_origins hd.2 hc.2
  refine ⟨_, h1, h2, ?_, ?_⟩
  · intro k w hkw hmiss
    have hitc : Iteration.mk p cps k w ∈ iterations c :=
      mem_iterations.2 ⟨groupAt_mem hcp, hkw⟩
    refine List.mem_append_right _ (List.mem_flatMap.2 ⟨_, hitc, ?_⟩)
    rw [deleteChanges_eq]
    simp [goValue_of_groupAt k hdp, hmiss]
  · intro k v hkv hkv' hv
    exact no_change_of_equal hd.1 hc.1 hdp hcp hkv hkv' hv

theorem delete_on_removed_key_witness :
    diff [("/app", some ⟨[("db", "x")], [], none⟩)]
        [("/app", some ⟨[("db", "x"), ("cache", "y")], [], none⟩)]
      = some ([Change.Delete "/app/cache"], none) ∧
    ∃ tr, diffOrigins [("/app", some ⟨[("db", "x")], [], none⟩)]
          [("/app", some ⟨[("db", "x"), ("cache", "y")], [], none⟩)] = some tr ∧
      (("/app", "cache"), Change.Delete (address "/app" "cache")) ∈ tr ∧
      tr.filter (fun o => decide (o.1 = ("/app", "db"))) = [] := by
  refine ⟨by decide, ?_⟩
  obtain ⟨tr, h1, _, h3, h4⟩ :=
    delete_on_removed_key [("/app", some ⟨[("db", "x")], [], none⟩)]
      [("/app", some ⟨[("db", "x"), ("cache", "y")], [], none⟩)] (by decide) (by decide)
      "/app" ⟨[("db", "x")], [], none⟩ ⟨[("db", "x"), ("cache", "y")], [], none⟩
      (by decide) (by decide)
  exact ⟨tr, h1, h3 "cache" "y" (by decide) (by decide),
    h4 "db" "x" (by decide) (by decide) (by decide)⟩

/-! ## Encryption key propagation (C9) -/

/-- C9: in `diff(desired, current)`, the Set change emitted for key `k` under path `p`
carries the `EncryptionKey` of the desired group at `p` when `k` is listed in that group's
`EncryptedKeys`, and carries no encryption key id when `k` is not listed there. -/
theorem encryption_key_propagation (d c : ParameterStates) (hd : IsTree d) (hc : IsTree c) :
    ∃ tr, diffOrigins d c = some tr ∧ diff d c = some (tr.map Prod.snd, none) ∧
      ∀ p k a v w e, ((p, k), Change.Set a v w e) ∈ tr →
        ∃ ps, groupAt d p = some ps ∧ a = address p k ∧
          (k ∈ ps.EncryptedKeys → e = ps.EncryptionKey) ∧
          (k ∉ ps.EncryptedKeys → e = none) := by
  obtain ⟨tr, h1, h2, rfl⟩ := diff_eq_origins hd.2 hc.2
  refine ⟨_, h1, h2, ?_⟩
  intro p k a v w e hmem
  rcases List.mem_append.1 hmem with hmem | hmem
  · obtain ⟨it, hit, ho⟩ := List.mem_flatMap.1 hmem
    rw [setChanges_eq] at ho
    split_ifs at ho with hcond
    · simp only [List.map_cons, List.map_nil, List.mem_singleton, Prod.mk.injEq,
        Change.Set.injEq] at ho
      obtain ⟨⟨rfl, rfl⟩, rfl, _, _, rfl⟩ := ho
      refine ⟨it.ps, groupAt_of_mem hd.1.1 (mem_iterations.1 hit).1, rfl, ?_, ?_⟩
      · intro hk; simp [encryptionKeyFor, hk]
      · intro hk; simp [encryptionKeyFor, hk]
    · simp at ho
  · obtain ⟨it, _, ho⟩ := List.mem_flatMap.1 hmem
    rw [deleteChanges_eq] at ho
    split_ifs at ho <;> simp at ho

theorem encryption_key_propagation_witness :
    diff [("/app", some ⟨[("db", "x"), ("cache", "y")], ["db"], some "alias/k"⟩)] []
      = some ([Change.Set "/app/db" "x" "" (some "alias/k"),
          Change.Set "/app/cache" "y" "" none], none) ∧
    ∃ tr, diffOrigins [("/app", some ⟨[("db", "x"), ("cache", "y")], ["db"], some "alias/k"⟩)] []
        = some tr ∧
      diff [("/app", some ⟨[("db", "x"), ("cache", "y")], ["db"], some "alias/k"⟩)] []
        = some (tr.map Prod.snd, none) ∧
      ∀ p k a v w e, ((p, k), Change.Set a v w e) ∈ tr →
        ∃ ps, groupAt [("/app", some ⟨[("db", "x"), ("cache", "y")], ["db"], some "alias/k"⟩)] p
            = some ps ∧ a = address p k ∧
          (k ∈ ps.EncryptedKeys → e = ps.EncryptionKey) ∧
          (k ∉ ps.EncryptedKeys → e = none) :=
  ⟨by decide, encryption_key_propagation _ [] (by decide) (by decide)⟩

/-! ## No-op on classification drift (C10) -/

/-- C10: two trees with the same paths and, under each path, the same key -> value map, all
values non-empty, have the empty diff, whatever the `EncryptedKeys` and `EncryptionKey` of
their groups are. -/
theorem no_op_on_classification_drift (d c : ParameterStates) (hd : IsTree d) (hc : IsTree c)
    (_hpaths : ∀ p, (groupAt d p).isSome = (groupAt c p).isSome)
    (hvalues : ∀ p k, entryAt d p k = entryAt c p k)
    (hned : NoEmptyValue d) (hnec : NoEmptyValue c) :
    diff d c = some ([], none) := by
  rw [diff_eq hd.2 hc.2]
  have h1 : (iterations d).flatMap (setChanges c) = [] := by
    rw [List.flatMap_eq_nil_iff]
    intro it hit
    have hv : goValue c it.path it.key = it.value := by
      rw [goValue_eq, ← hvalues, entryAt_of_mem hd.1 hit]
      rfl
    rw [setChanges_eq, hv]
    simp [hned it hit]
  have h2 : (iterations c).flatMap (deleteChanges d) = [] := by
    rw [List.flatMap_eq_nil_iff]
    intro it hit
    have hv : goValue d it.path it.key = it.value := by
      rw [goValue_eq, hvalues, entryAt_of_mem hc.1 hit]
      rfl
    rw [deleteChanges_eq, hv]
    simp [hnec it hit]
  rw [h1, h2]
  rfl

theorem no_op_on_classification_drift_witness :
    diff [("/app", some ⟨[("db", "x"), ("cache", "y")], ["db"], some "alias/k"⟩)]
      [("/app", some ⟨[("cache", "y"), ("db", "x")], ["cache"], some "alias/other"⟩)]
      = some ([], none) :=
  no_op_on_classification_drift _ _ (by decide) (by decide)
    (by
      intro p
      by_cases h : "/app" = p <;> simp [groupAt, lookupKey, h])
    (by
      intro p k
      by_cases h : "/app" = p
      · by_cases h1 : "db" = k
        · have h2 : "cache" ≠ k := by rw [← h1]; decide
          simp [entryAt, groupAt, lookupKey, h, h1, h2]
        · by_cases h2 : "cache" = k <;> simp [entryAt, groupAt, lookupKey, h, h1, h2]
      · simp [entryAt, groupAt, lookupKey, h])
    (by decide) (by decide)

/-! ## Output order (C11) -/

theorem isSet_of_mem_sets {d c : ParameterStates} {ch : Change}
    (h : ch ∈ (iterations d).flatMap (setChanges c)) : ch.isSet = true := by
  obtain ⟨it, _, hch⟩ := List.mem_flatMap.1 h
  have hf := filter_setChanges_isSet c it
  rw [← hf] at hch
  exact (List.mem_filter.1 hch).2

theorem isSet_of_mem_deletes {d c : ParameterStates} {ch : Change}
    (h : ch ∈ (iterations c).flatMap (deleteChanges d)) : ch.isSet = false := by
  obtain ⟨it, _, hch⟩ := List.mem_flatMap.1 h
  cases hs : ch.isSet with
  | false => rfl
  | true =>
    have hmem : ch ∈ (deleteChanges d it).filter Change.isSet := List.mem_filter.2 ⟨hch, hs⟩
    rw [filter_deleteChanges_isSet] at hmem
    simp at hmem

/-- In a list made of a block satisfying `q` followed by a block falsifying it, an element
satisfying `q` stands before every element falsifying it. -/
theorem lt_of_blocks {α : Type} (q : α → Bool) (xs ys : List α)
    (hx : ∀ x ∈ xs, q x = true) (hy : ∀ y ∈ ys, q y = false)
    (i j : Nat) (hi : i < (xs ++ ys).length) (hj : j < (xs ++ ys).length)
    (hqi : q ((xs ++ ys).get ⟨i, hi⟩) = false) (hqj : q ((xs ++ ys).get ⟨j, hj⟩) = true) :
    j < i := by
  have hjx : j < xs.length := by
    by_contra hge
    have hge : xs.length ≤ j := Nat.le_of_not_lt hge
    have hmem : (xs ++ ys).get ⟨j, hj⟩ ∈ ys := by
      simp only [List.get_eq_getElem]
      rw [List.getElem_append_right hge]
      exact List.getElem_mem _
    rw [hy _ hmem] at hqj
    cases hqj
  have hix : xs.length ≤ i := by
    by_contra hlt
    have hlt : i < xs.length := Nat.lt_of_not_le hlt
    have hmem : (xs ++ ys).get ⟨i, hi⟩ ∈ xs := by
      simp only [List.get_eq_getElem]
      rw [List.getElem_append_left hlt]
      exact List.getElem_mem _
    rw [hx _ hmem] at hqi
    cases hqi
  exact Nat.lt_of_lt_of_le hjx hix

/-- C11: `diff(desired, current)` is a block of Set changes followed by a block of Delete
changes; no Delete stands at an earlier position than a Set. -/
theorem diff_output_order (d c : ParameterStates) (hd : IsTree d) (hc : IsTree c) :
    ∃ sets deletes : Diff, diff d c = some (sets ++ deletes, none) ∧
      (∀ ch ∈ sets, ch.isSet = true) ∧ (∀ ch ∈ deletes, ch.isSet = false) ∧
      ∀ (i j : Nat) (hi : i < (sets ++ deletes).length) (hj : j < (sets ++ deletes).length),
        ((sets ++ deletes).get ⟨i, hi⟩).isSet = false →
        ((sets ++ deletes).get ⟨j, hj⟩).isSet = true → j < i :=
  ⟨_, _, diff_eq hd.2 hc.2, fun _ h => isSet_of_mem_sets h, fun _ h => isSet_of_mem_deletes h,
    lt_of_blocks Change.isSet _ _ (fun _ h => isSet_of_mem_sets h)
      (fun _ h => isSet_of_mem_deletes h)⟩

theorem diff_output_order_witness :
    diff [("/app", some ⟨[("db", "x2"), ("new", "n")], [], none⟩)]
      [("/old", some ⟨[("gone", "g")], [], none⟩), ("/app", some ⟨[("db", "x1")], [], none⟩)]
      = some ([Change.Set "/app/db" "x2" "x1" none, Change.Set "/app/new" "n" "" none,
          Change.Delete "/old/gone"], none) ∧
    ∃ sets deletes : Diff,
      diff [("/app", some ⟨[("db", "x2"), ("new", "n")], [], none⟩)]
        [("/old", some ⟨[("gone", "g")], [], none⟩), ("/app", some ⟨[("db", "x1")], [], none⟩)]
        = some (sets ++ deletes, none) ∧
      (∀ ch ∈ sets, ch.isSet = true) ∧ (∀ ch ∈ deletes, ch.isSet = false) ∧
      ∀ (i j : Nat) (hi : i < (sets ++ deletes).length) (hj : j < (sets ++ deletes).length),
        ((sets ++ deletes).get ⟨i, hi⟩).isSet = false →
        ((sets ++ deletes).get ⟨j, hj⟩).isSet = true → j < i :=
  ⟨by decide, diff_output_order _ _ (by decide) (by decide)⟩

/-! ## Diff cannot fail (C13) -/

/-- C13: on two trees whose groups are all present, `diff` returns a change sequence and the
nil error; and whenever `diff` returns, its error result is nil. -/
theorem diff_cannot_fail (d c : ParameterStates) :
    (NoNilGroup d → NoNilGroup c → ∃ cs, diff d c = some (cs, none)) ∧
    (∀ cs err, diff d c = some (cs, err) → err = none) := by
  constructor
  · intro hd hc
    exact ⟨_, diff_eq hd hc⟩
  · intro cs err h
    unfold diff at h
    simp only [Option.bind_eq_bind, Option.pure_def, Option.bind_eq_some, Option.some.injEq,
      Prod.mk.injEq] at h
    obtain ⟨_, _, _, _, _, he⟩ := h
    exact he.symm

theorem diff_cannot_fail_witness :
    NoNilGroup [("/app", some ⟨[("db", "x")], ["db"], some "k"⟩)] ∧
    NoNilGroup [("/app", some ⟨[("cache", "y")], [], none⟩)] ∧
    ∃ cs, diff [("/app", some ⟨[("db", "x")], ["db"], some "k"⟩)]
      [("/app", some ⟨[("cache", "y")], [], none⟩)] = some (cs, none) :=
  ⟨by decide, by decide,
    (diff_cannot_fail [("/app", some ⟨[("db", "x")], ["db"], some "k"⟩)]
      [("/app", some ⟨[("cache", "y")], [], none⟩)]).1 (by decide) (by decide)⟩

/-! ## No address is both set and deleted (C19) -/

/-- C19, as stated, fails: with desired `/a = {b/c: "x"}` (no empty value) and current
`/a/b = {c: "y"}`, the address `/a/b/c` is the target of a Set and of a Delete. -/
theorem set_and_delete_counterexample :
    IsTree [("/a", some ⟨[("b/c", "x")], [], none⟩)] ∧
    IsTree [("/a/b", some ⟨[("c", "y")], [], none⟩)] ∧
    NoEmptyValue [("/a", some ⟨[("b/c", "x")], [], none⟩)] ∧
    diff [("/a", some ⟨[("b/c", "x")], [], none⟩)] [("/a/b", some ⟨[("c", "y")], [], none⟩)]
      = some ([Change.Set "/a/b/c" "x" "" none, Change.Delete "/a/b/c"], none) := by
  decide

/-- C19, amended: for a desired tree in which no value is the empty string and a current
tree, no key of either tree containing `/`, no address is the target of both a Set change
and a Delete change of `diff(desired, current)`. -/
theorem no_set_and_delete (d c : ParameterStates) (hd : IsTree d) (hc : IsTree c)
    (hned : NoEmptyValue d) (hsd : NoSlashInKeys d) (hsc : NoSlashInKeys c) :
    ∃ cs, diff d c = some (cs, none) ∧
      ∀ a v w e, Change.Set a v w e ∈ cs → Change.Delete a ∉ cs := by
  refine ⟨_, diff_eq hd.2 hc.2, ?_⟩
  intro a v w e hset hdel
  have hset' : Change.Set a v w e ∈ (iterations d).flatMap (setChanges c) := by
    rcases List.mem_append.1 hset with h | h
    · exact h
    · have := isSet_of_mem_deletes h
      simp [Change.isSet] at this
  have hdel' : Change.Delete a ∈ (iterations c).flatMap (deleteChanges d) := by
    rcases List.mem_append.1 hdel with h | h
    · have := isSet_of_mem_sets h
      simp [Change.isSet] at this
    · exact h
  obtain ⟨it, hit, _, ha, _⟩ := mem_sets hset'
  obtain ⟨it', hit', hcond, ha', _⟩ := mem_deletes hdel'
  simp only [Change.address] at ha ha'
  rw [ha] at ha'
  obtain ⟨hp, hk⟩ := address_inj (hsd _ hit) (hsc _ hit') ha'
  rw [← hp, ← hk, goValue_of_mem hd.1 hit] at hcond
  exact hned it hit hcond

theorem no_set_and_delete_witness :
    diff [("/app", some ⟨[("db", "x2"), ("new", "n")], [], none⟩)]
      [("/old", some ⟨[("gone", "g")], [], none⟩), ("/app", some ⟨[("db", "x1")], [], none⟩)]
      = some ([Change.Set "/app/db" "x2" "x1" none, Change.Set "/app/new" "n" "" none,
          Change.Delete "/old/gone"], none) ∧
    ∃ cs, diff [("/app", some ⟨[("db", "x2"), ("new", "n")], [], none⟩)]
        [("/old", some ⟨[("gone", "g")], [], none⟩), ("/app", some ⟨[("db", "x1")], [], none⟩)]
        = some (cs, none) ∧
      ∀ a v w e, Change.Set a v w e ∈ cs → Change.Delete a ∉ cs :=
  ⟨by decide, no_set_and_delete _ _ (by decide) (by decide) (by decide) (by decide)
    (by decide)⟩

/-! ## Empty string means absent (C12) -/

theorem lookupKey_map {V W : Type} (g : String → V → W) (q : String) :
    ∀ m : List (String × V),
      lookupKey q (m.map (fun e => (e.1, g e.1 e.2))) = (lookupKey q m).map (g q)
  | [] => rfl
  | (a, v) :: m => by
    by_cases h : a = q
    · simp [lookupKey, h]
    · simp [lookupKey, h, lookupKey_map g q m]

theorem lookupKey_filter_ne {V : Type} (k j : String) :
    ∀ m : List (String × V),
      lookupKey j (m.filter (fun kv => decide (kv.1 ≠ k))) =
        if j = k then none else lookupKey j m
  | [] => by simp [lookupKey]
  | (a, v) :: m => by
    have ih := lookupKey_filter_ne k j m
    by_cases hak : a = k
    · subst hak
      by_cases hj : j = a
      · subst hj
        simpa [List.filter_cons, lookupKey] using ih
      · have hj' : a ≠ j := fun e => hj e.symm
        simpa [List.filter_cons, lookupKey, hj, hj'] using ih
    · by_cases haj : a = j
      · subst haj
        simp [List.filter_cons, lookupKey, hak]
      · simpa [List.filter_cons, lookupKey, hak, haj] using ih

theorem groupAt_removeKey (c : ParameterStates) (p k q : String) :
    groupAt (removeKey c p k) q =
      if q = p then
        (groupAt c q).map (fun ps =>
          { ps with Parameters := ps.Parameters.filter (fun kv => kv.1 ≠ k) })
      else groupAt c q := by
  unfold groupAt removeKey
  rw [lookupKey_map (fun path g => if path = p then
      g.map (fun ps => { ps with Parameters := ps.Parameters.filter (fun kv => kv.1 ≠ k) })
    else g) q c]
  cases lookupKey q c with
  | none => simp
  | some g =>
    by_cases h : q = p
    · cases g <;> simp [h]
    · simp [h]

/-- Removing from the current tree a key whose value reads as `""` changes no read of the
tree. -/
theorem goValue_removeKey {c : ParameterStates} {p k : String} (h : goValue c p k = "")
    (q j : String) : goValue (removeKey c p k) q j = goValue c q j := by
  unfold goValue at h ⊢
  rw [groupAt_removeKey]
  by_cases hq : q = p
  · subst hq
    rw [if_pos rfl]
    cases hg : groupAt c q with
    | none => rfl
    | some ps =>
      rw [hg] at h
      simp only [Option.map_some']
      unfold valueAt at h ⊢
      rw [lookupKey_filter_ne]
      by_cases hj : j = k
      · subst hj
        rw [if_pos rfl]
        exact h.symm
      · rw [if_neg hj]
  · rw [if_neg hq]

theorem noNilGroup_removeKey {c : ParameterStates} (hc : NoNilGroup c) (p k : String) :
    NoNilGroup (removeKey c p k) := by
  intro e he
  unfold removeKey at he
  obtain ⟨e0, he0, rfl⟩ := List.mem_map.1 he
  have h0 := hc e0 he0
  cases hg : e0.2 with
  | none => exact absurd hg h0
  | some ps => by_cases hp : e0.1 = p <;> simp [hp]

theorem iterations_cons (e : String × Option ParameterState) (t : ParameterStates) :
    iterations (e :: t) =
      (match e.2 with
        | none => []
        | some ps => ps.Parameters.map (fun kv => Iteration.mk e.1 ps kv.1 kv.2))
      ++ iterations t := by
  simp [iterations]

/-- The `(path, key)` pairs that the loops over the tree without the key visit. -/
theorem pairs_removeKey (p k : String) :
    ∀ c : ParameterStates,
      (iterations (removeKey c p k)).map (fun it => (it.path, it.key)) =
        ((iterations c).map (fun it => (it.path, it.key))).filter
          (fun pk => decide (pk ≠ (p, k)))
  | [] => rfl
  | (q, g) :: c => by
    have ih := pairs_removeKey p k c
    have hcons : removeKey ((q, g) :: c) p k =
        (q, if q = p then g.map (fun ps =>
            { ps with Parameters := ps.Parameters.filter (fun kv => kv.1 ≠ k) }) else g)
          :: removeKey c p k := rfl
    rw [hcons, iterations_cons, iterations_cons, List.map_append, List.map_append,
      List.filter_append, ih]
    congr 1
    cases g with
    | none => by_cases hq : q = p <;> simp [hq]
    | some ps =>
      by_cases hq : q = p
      · subst hq
        simp only [if_pos, Option.map_some', List.map_map, List.filter_map]
        congr 1
        apply List.filter_congr
        intro kv _
        simp [Function.comp_def]
      · simp only [if_neg hq, List.map_map]
        symm
        rw [List.filter_eq_self]
        intro pk hpk
        obtain ⟨kv, _, rfl⟩ := List.mem_map.1 hpk
        simp [Function.comp_def, hq]

/-- The Delete that the second pass appends for a `(path, key)` pair. -/
theorem deletes_eq_pairs (d c : ParameterStates) :
    (iterations c).flatMap (deleteChanges d) =
      ((iterations c).map (fun it => (it.path, it.key))).flatMap (fun pk =>
        if goValue d pk.1 pk.2 = "" then [Change.Delete (address pk.1 pk.2)] else []) := by
  rw [List.flatMap_map]
  congr 1
  funext it
  exact deleteChanges_eq d it

theorem flatMap_filter_ne_of_nil {α β : Type} [DecidableEq α] (f : α → List β) (a : α)
    (h : f a = []) :
    ∀ l : List α, (l.filter (fun x => decide (x ≠ a))).flatMap f = l.flatMap f
  | [] => rfl
  | x :: l => by
    have ih := flatMap_filter_ne_of_nil f a h l
    by_cases hx : x = a
    · subst hx
      simpa [List.filter_cons, h] using ih
    · simpa [List.filter_cons, hx] using ih

theorem flatMap_perm_filter_ne {α β : Type} [DecidableEq α] (f : α → List β) (a : α) :
    ∀ l : List α, l.Nodup → a ∈ l →
      (l.flatMap f).Perm (f a ++ (l.filter (fun x => decide (x ≠ a))).flatMap f)
  | [], _, h => by simp at h
  | x :: l, hnd, h => by
    obtain ⟨hx, hnd'⟩ := List.nodup_cons.1 hnd
    by_cases hxa : x = a
    · subst hxa
      have hfil : l.filter (fun y => decide (y ≠ x)) = l := by
        rw [List.filter_eq_self]
        intro y hy
        have : y ≠ x := fun e => hx (e ▸ hy)
        simp [this]
      rw [List.filter_cons, if_neg (by simp), hfil, List.flatMap_cons]
    · have ha : a ∈ l := by
        rcases List.mem_cons.1 h with h | h
        · exact absurd h.symm hxa
        · exact h
      have ih := flatMap_perm_filter_ne f a l hnd' ha
      simp only [List.flatMap_cons, List.filter_cons, hxa, ne_eq, not_false_eq_true,
        decide_True, if_true]
      refine (List.Perm.append_left (f x) ih).trans ?_
      rw [← List.append_assoc, ← List.append_assoc]
      exact List.Perm.append_right _ List.perm_append_comm

/-- C12, as stated, fails: with desired empty and current `/app = {db: ""}`, the diff is a
Delete for `/app/db`, while the diff against current without the key `db` is empty. -/
theorem empty_means_absent_counterexample :
    IsTree [("/app", some ⟨[("db", "")], [], none⟩)] ∧
    removeKey [("/app", some ⟨[("db", "")], [], none⟩)] "/app" "db"
      = [("/app", some ⟨[], [], none⟩)] ∧
    diff [] [("/app", some ⟨[("db", "")], [], none⟩)]
      = some ([Change.Delete "/app/db"], none) ∧
    diff [] (removeKey [("/app", some ⟨[("db", "")], [], none⟩)] "/app" "db")
      = some ([], none) := by
  decide

/-- C12, amended: let `current'` be `current` with a key `k`, whose value in the group of
`current` at `p` is the empty string, removed from that group.  `diff(desired, current)` and
`diff(desired, current')` hold the same Set changes in the same order; they are equal when
`desired` holds a non-empty value for `k` under `p`, and otherwise `diff(desired, current)`
holds the changes of `diff(desired, current')` and one more, the Delete for `p/k`. -/
theorem empty_means_absent (d c : ParameterStates) (hd : IsTree d) (hc : IsTree c)
    (p k : String) (cps : ParameterState)
    (hcp : groupAt c p = some cps) (hk : (k, "") ∈ cps.Parameters) :
    ∃ cs cs', diff d c = some (cs, none) ∧ diff d (removeKey c p k) = some (cs', none) ∧
      cs.filter Change.isSet = cs'.filter Change.isSet ∧
      (goValue d p k ≠ "" → cs = cs') ∧
      (goValue d p k = "" → cs.Perm (Change.Delete (address p k) :: cs')) := by
  have hit : Iteration.mk p cps k "" ∈ iterations c :=
    mem_iterations.2 ⟨groupAt_mem hcp, hk⟩
  have hgc : goValue c p k = "" := goValue_of_mem hc.1 hit
  have hsets : (iterations d).flatMap (setChanges (removeKey c p k))
      = (iterations d).flatMap (setChanges c) := by
    congr 1
    funext it
    rw [setChanges_eq, setChanges_eq, goValue_removeKey hgc]
  have hmem : (p, k) ∈ (iterations c).map (fun it => (it.path, it.key)) :=
    List.mem_map.2 ⟨_, hit, rfl⟩
  refine ⟨_, _, diff_eq hd.2 hc.2, diff_eq hd.2 (noNilGroup_removeKey hc.2 p k), ?_, ?_, ?_⟩
  · rw [hsets, List.filter_append, List.filter_append]
    congr 1
    rw [List.filter_eq_nil_iff.2, List.filter_eq_nil_iff.2]
    · intro ch hch
      simp [isSet_of_mem_deletes hch]
    · intro ch hch
      simp [isSet_of_mem_deletes hch]
  · intro hv
    rw [hsets, deletes_eq_pairs d c, deletes_eq_pairs d (removeKey c p k), pairs_removeKey,
      flatMap_filter_ne_of_nil _ (p, k) (by simp [hv])]
  · intro hv
    rw [hsets, deletes_eq_pairs d c, deletes_eq_pairs d (removeKey c p k), pairs_removeKey]
    have hperm := flatMap_perm_filter_ne
      (fun pk : String × String =>
        if goValue d pk.1 pk.2 = "" then [Change.Delete (address pk.1 pk.2)] else [])
      (p, k) _ (nodup_pairs hc.1) hmem
    simp only [hv, if_true, List.singleton_append] at hperm
    refine (List.Perm.append_left _ hperm).trans ?_
    exact List.perm_middle

theorem empty_means_absent_witness :
    ∃ cs cs', diff [("/app", some ⟨[("db", "x")], [], none⟩)]
        [("/app", some ⟨[("db", ""), ("cache", "y")], [], none⟩)] = some (cs, none) ∧
      diff [("/app", some ⟨[("db", "x")], [], none⟩)]
        (removeKey [("/app", some ⟨[("db", ""), ("cache", "y")], [], none⟩)] "/app" "db")
        = some (cs', none) ∧
      cs.filter Change.isSet = cs'.filter Change.isSet ∧
      (goValue [("/app", some ⟨[("db", "x")], [], none⟩)] "/app" "db" ≠ "" → cs = cs') ∧
      (goValue [("/app", some ⟨[("db", "x")], [], none⟩)] "/app" "db" = "" →
        cs.Perm (Change.Delete (address "/app" "db") :: cs')) :=
  empty_means_absent [("/app", some ⟨[("db", "x")], [], none⟩)]
    [("/app", some ⟨[("db", ""), ("cache", "y")], [], none⟩)] (by decide) (by decide)
    "/app" "db" ⟨[("db", ""), ("cache", "y")], [], none⟩ (by decide) (by decide)

/-! ## Iteration order and the metadata of current (C18, C20) -/

theorem sets_eq_summaries (d c : ParameterStates) :
    (iterations d).flatMap (setChanges c) =
      ((iterations d).map Iteration.summary).flatMap (setChangesOf c) := by
  rw [List.flatMap_map]
  congr 1
  funext it
  exact setChanges_eq c it

theorem deletes_eq_summaries (d c : ParameterStates) :
    (iterations c).flatMap (deleteChanges d) =
      ((iterations c).map Iteration.summary).flatMap (deleteChangesOf d) := by
  rw [List.flatMap_map]
  congr 1
  funext it
  exact deleteChanges_eq d it

/-- The value of a key under a path, from the iterations of the tree. -/
theorem entryAt_eq_some_iff {t : ParameterStates} (hm : IsMap t) (p k v : String) :
    entryAt t p k = some v ↔
      ∃ it ∈ iterations t, it.path = p ∧ it.key = k ∧ it.value = v := by
  constructor
  · intro h
    obtain ⟨ps, hit⟩ := mem_of_entryAt h
    exact ⟨_, hit, rfl, rfl, rfl⟩
  · rintro ⟨it, hit, rfl, rfl, rfl⟩
    exact entryAt_of_mem hm hit

/-- Two maps whose iterations visit the same `(path, key, value)` triples hold the same
values. -/
theorem entryAt_congr {t r : ParameterStates} (ht : IsMap t) (hr : IsMap r)
    (h : ∀ p k v, (∃ it ∈ iterations t, it.path = p ∧ it.key = k ∧ it.value = v) ↔
      (∃ it ∈ iterations r, it.path = p ∧ it.key = k ∧ it.value = v))
    (p k : String) : entryAt t p k = entryAt r p k := by
  cases ht' : entryAt t p k with
  | some v =>
    exact ((entryAt_eq_some_iff hr p k v).2
      ((h p k v).1 ((entryAt_eq_some_iff ht p k v).1 ht'))).symm
  | none =>
    cases hr' : entryAt r p k with
    | none => rfl
    | some v =>
      have := (entryAt_eq_some_iff ht p k v).2
        ((h p k v).2 ((entryAt_eq_some_iff hr p k v).1 hr'))
      rw [ht'] at this
      cases this

theorem goValue_congr {t r : ParameterStates} (h : ∀ p k, entryAt t p k = entryAt r p k) :
    goValue t = goValue r := by
  funext p k
  rw [goValue_eq, goValue_eq, h]

theorem mem_summary_iff {t : ParameterStates} (p k v : String) :
    (∃ it ∈ iterations t, it.path = p ∧ it.key = k ∧ it.value = v) ↔
      ∃ e, (p, k, v, e) ∈ (iterations t).map Iteration.summary := by
  constructor
  · rintro ⟨it, hit, rfl, rfl, rfl⟩
    exact ⟨_, List.mem_map.2 ⟨it, hit, rfl⟩⟩
  · rintro ⟨e, he⟩
    obtain ⟨it, hit, hs⟩ := List.mem_map.1 he
    simp only [Iteration.summary, Prod.mk.injEq] at hs
    exact ⟨it, hit, hs.1, hs.2.1, hs.2.2.1⟩

/-- Two iteration orders of one map visit the same iterations, up to their order. -/
theorem summaries_perm {t r : ParameterStates} (h : Reordered t r) :
    ((iterations t).map Iteration.summary).Perm ((iterations r).map Iteration.summary) := by
  obtain ⟨m, hperm, hall⟩ := h
  have h1 : ((iterations t).map Iteration.summary).Perm
      ((iterations m).map Iteration.summary) :=
    (List.Perm.flatMap_right _ hperm).map _
  refine h1.trans ?_
  clear h1 hperm
  induction hall with
  | nil => exact List.Perm.refl _
  | @cons e f m r hef _ ih =>
    rw [iterations_cons, iterations_cons, List.map_append, List.map_append]
    refine List.Perm.append ?_ ih
    obtain ⟨p, g⟩ := e
    obtain ⟨q, g'⟩ := f
    obtain ⟨hpq, hg⟩ := hef
    simp only at hpq
    subst hpq
    cases g with
    | none =>
      cases g' with
      | none => exact List.Perm.refl _
      | some y => exact absurd hg (by simp [ReorderedGroup])
    | some x =>
      cases g' with
      | none => exact absurd hg (by simp [ReorderedGroup])
      | some y =>
        obtain ⟨hpar, hkeys, hid⟩ : x.Parameters.Perm y.Parameters ∧
            x.EncryptedKeys = y.EncryptedKeys ∧ x.EncryptionKey = y.EncryptionKey := hg
        simp only [List.map_map]
        have hfun : (Iteration.summary ∘ fun kv : String × String =>
              Iteration.mk p x kv.1 kv.2)
            = (Iteration.summary ∘ fun kv : String × String =>
              Iteration.mk p y kv.1 kv.2) := by
          funext kv
          simp [Iteration.summary, encryptionKeyFor, hkeys, hid]
        rw [hfun]
        exact hpar.map _

/-- C20: two runs of `diff` over the same desired and current trees, with any two iteration
orders of the paths of each tree and of the keys of each group, return sequences that are
permutations of each other. -/
theorem diff_deterministic_up_to_order (d c d' c' : ParameterStates)
    (hd : IsTree d) (hc : IsTree c) (hd' : IsTree d') (hc' : IsTree c')
    (hdd : Reordered d d') (hcc : Reordered c c') :
    ∃ cs cs', diff d c = some (cs, none) ∧ diff d' c' = some (cs', none) ∧ cs.Perm cs' := by
  refine ⟨_, _, diff_eq hd.2 hc.2, diff_eq hd'.2 hc'.2, ?_⟩
  have hpd := summaries_perm hdd
  have hpc := summaries_perm hcc
  have hgd : goValue d = goValue d' :=
    goValue_congr (entryAt_congr hd.1 hd'.1 (fun p k v => by
      rw [mem_summary_iff, mem_summary_iff]
      exact exists_congr (fun e => hpd.mem_iff)))
  have hgc : goValue c = goValue c' :=
    goValue_congr (entryAt_congr hc.1 hc'.1 (fun p k v => by
      rw [mem_summary_iff, mem_summary_iff]
      exact exists_congr (fun e => hpc.mem_iff)))
  have hs : setChangesOf c = setChangesOf c' := by
    funext s
    simp only [setChangesOf, hgc]
  have hdl : deleteChangesOf d = deleteChangesOf d' := by
    funext s
    simp only [deleteChangesOf, hgd]
  rw [sets_eq_summaries, sets_eq_summaries, deletes_eq_summaries, deletes_eq_summaries,
    hs, hdl]
  exact List.Perm.append (List.Perm.flatMap_right _ hpd) (List.Perm.flatMap_right _ hpc)

theorem diff_deterministic_up_to_order_witness :
    diff [("/app", some ⟨[("db", "x2"), ("new", "n")], [], none⟩),
        ("/b", some ⟨[("k", "v")], [], none⟩)]
      [("/app", some ⟨[("db", "x1")], [], none⟩)]
      = some ([Change.Set "/app/db" "x2" "x1" none, Change.Set "/app/new" "n" "" none,
          Change.Set "/b/k" "v" "" none], none) ∧
    diff [("/b", some ⟨[("k", "v")], [], none⟩),
        ("/app", some ⟨[("new", "n"), ("db", "x2")], [], none⟩)]
      [("/app", some ⟨[("db", "x1")], [], none⟩)]
      = some ([Change.Set "/b/k" "v" "" none, Change.Set "/app/new" "n" "" none,
          Change.Set "/app/db" "x2" "x1" none], none) ∧
    ∃ cs cs',
      diff [("/app", some ⟨[("db", "x2"), ("new", "n")], [], none⟩),
          ("/b", some ⟨[("k", "v")], [], none⟩)]
        [("/app", some ⟨[("db", "x1")], [], none⟩)] = some (cs, none) ∧
      diff [("/b", some ⟨[("k", "v")], [], none⟩),
          ("/app", some ⟨[("new", "n"), ("db", "x2")], [], none⟩)]
        [("/app", some ⟨[("db", "x1")], [], none⟩)] = some (cs', none) ∧
      cs.Perm cs' :=
  ⟨by decide, by decide,
    diff_deterministic_up_to_order _ _ _ _ (by decide) (by decide) (by decide) (by decide)
      ⟨[("/b", some ⟨[("k", "v")], [], none⟩),
          ("/app", some ⟨[("db", "x2"), ("new", "n")], [], none⟩)],
        List.Perm.swap _ _ _,
        List.Forall₂.cons ⟨rfl, List.Perm.refl _, rfl, rfl⟩
          (List.Forall₂.cons ⟨rfl, List.Perm.swap _ _ _, rfl, rfl⟩ List.Forall₂.nil)⟩
      ⟨_, List.Perm.refl _,
        List.Forall₂.cons ⟨rfl, List.Perm.refl _, rfl, rfl⟩ List.Forall₂.nil⟩⟩

/-- Two trees with the same values in the same order are visited by the same `(path, key)`
iterations with the same values, in the same order. -/
theorem triples_eq_of_sameValues {t r : ParameterStates} (h : SameValuesInOrder t r) :
    (iterations t).map (fun it => (it.path, it.key, it.value)) =
      (iterations r).map (fun it => (it.path, it.key, it.value)) := by
  induction h with
  | nil => rfl
  | @cons e f t r hef _ ih =>
    rw [iterations_cons, iterations_cons, List.map_append, List.map_append, ih]
    congr 1
    obtain ⟨p, g⟩ := e
    obtain ⟨q, g'⟩ := f
    obtain ⟨hpq, hg⟩ := hef
    simp only at hpq
    subst hpq
    cases g with
    | none =>
      cases g' with
      | none => rfl
      | some y => exact absurd hg (by simp [SameValuesGroup])
    | some x =>
      cases g' with
      | none => exact absurd hg (by simp [SameValuesGroup])
      | some y =>
        have hpar : x.Parameters = y.Parameters := hg
        simp [List.map_map, Function.comp_def, hpar]

theorem deletes_eq_triples (d c : ParameterStates) :
    (iterations c).flatMap (deleteChanges d) =
      ((iterations c).map (fun it => (it.path, it.key, it.value))).flatMap (fun s =>
        if goValue d s.1 s.2.1 = "" then [Change.Delete (address s.1 s.2.1)] else []) := by
  rw [List.flatMap_map]
  congr 1
  funext it
  exact deleteChanges_eq d it

theorem mem_triples_iff {t : ParameterStates} (p k v : String) :
    (∃ it ∈ iterations t, it.path = p ∧ it.key = k ∧ it.value = v) ↔
      (p, k, v) ∈ (iterations t).map (fun it => (it.path, it.key, it.value)) := by
  constructor
  · rintro ⟨it, hit, rfl, rfl, rfl⟩
    exact List.mem_map.2 ⟨it, hit, rfl⟩
  · intro he
    obtain ⟨it, hit, hs⟩ := List.mem_map.1 he
    simp only [Prod.mk.injEq] at hs
    exact ⟨it, hit, hs.1, hs.2.1, hs.2.2⟩

theorem nodup_triples {t : ParameterStates} (hm : IsMap t) :
    ((iterations t).map (fun it => (it.path, it.key, it.value))).Nodup := by
  refine (nodup_iterations hm).map_on ?_
  intro a ha b hb h
  simp only [Prod.mk.injEq] at h
  exact iteration_unique hm ha hb h.1 h.2.1

/-- C18: `diff` does not read the encryption metadata of `current`.  Two current trees that
differ only in the `EncryptedKeys` and `EncryptionKey` of their groups give the same diff;
two current trees with the same paths and the same key -> value map under each path give the
same Set block and the same Deletes up to the order in which each tree is visited; and the
encryption key id of a Set is the one of the desired group of its key. -/
theorem diff_ignores_current_metadata (d c1 c2 : ParameterStates)
    (hd : IsTree d) (hc1 : IsTree c1) (hc2 : IsTree c2) :
    (SameValuesInOrder c1 c2 → diff d c1 = diff d c2) ∧
    ((∀ p, (groupAt c1 p).isSome = (groupAt c2 p).isSome) →
      (∀ p k, entryAt c1 p k = entryAt c2 p k) →
      ∃ sets deletes1 deletes2, diff d c1 = some (sets ++ deletes1, none) ∧
        diff d c2 = some (sets ++ deletes2, none) ∧ deletes1.Perm deletes2) ∧
    (∀ cs a v w e, diff d c1 = some (cs, none) → Change.Set a v w e ∈ cs →
      ∃ p k ps, groupAt d p = some ps ∧ a = address p k ∧ e = encryptionKeyFor ps k) := by
  refine ⟨?_, ?_, ?_⟩
  · intro hsame
    have htr := triples_eq_of_sameValues hsame
    have hg : goValue c1 = goValue c2 :=
      goValue_congr (entryAt_congr hc1.1 hc2.1 (fun p k v => by
        rw [mem_triples_iff, mem_triples_iff, htr]))
    rw [diff_eq hd.2 hc1.2, diff_eq hd.2 hc2.2, deletes_eq_triples d c1,
      deletes_eq_triples d c2, htr, sets_eq_summaries d c1, sets_eq_summaries d c2]
    have hs : setChangesOf c1 = setChangesOf c2 := by
      funext s
      simp only [setChangesOf, hg]
    rw [hs]
  · intro _ hval
    have hg : goValue c1 = goValue c2 := goValue_congr hval
    have hs : setChangesOf c1 = setChangesOf c2 := by
      funext s
      simp only [setChangesOf, hg]
    refine ⟨(iterations d).flatMap (setChanges c1), (iterations c1).flatMap (deleteChanges d),
      (iterations c2).flatMap (deleteChanges d), diff_eq hd.2 hc1.2, ?_, ?_⟩
    · rw [diff_eq hd.2 hc2.2, sets_eq_summaries d c1, sets_eq_summaries d c2, hs]
    · rw [deletes_eq_triples d c1, deletes_eq_triples d c2]
      refine List.Perm.flatMap_right _ ?_
      refine (List.perm_ext_iff_of_nodup (nodup_triples hc1.1) (nodup_triples hc2.1)).2 ?_
      rintro ⟨p, k, v⟩
      rw [← mem_triples_iff, ← mem_triples_iff, ← entryAt_eq_some_iff hc1.1,
        ← entryAt_eq_some_iff hc2.1, hval]
  · intro cs a v w e hdiff hmem
    rw [diff_eq hd.2 hc1.2] at hdiff
    simp only [Option.some.injEq, Prod.mk.injEq, and_true] at hdiff
    subst hdiff
    rcases List.mem_append.1 hmem with h | h
    · obtain ⟨it, hit, hch⟩ := List.mem_flatMap.1 h
      rw [setChanges_eq] at hch
      split_ifs at hch
      · simp only [List.mem_singleton, Change.Set.injEq] at hch
        exact ⟨it.path, it.key, it.ps, groupAt_of_mem hd.1.1 (mem_iterations.1 hit).1,
          hch.1, hch.2.2.2⟩
      · simp at hch
    · have := isSet_of_mem_deletes h
      simp [Change.isSet] at this

theorem diff_ignores_current_metadata_witness :
    diff [("/app", some ⟨[("db", "x2")], ["db"], some "alias/d"⟩)]
        [("/app", some ⟨[("db", "x1"), ("old", "o")], ["db"], some "alias/c"⟩)]
      = diff [("/app", some ⟨[("db", "x2")], ["db"], some "alias/d"⟩)]
        [("/app", some ⟨[("db", "x1"), ("old", "o")], ["old"], none⟩)] ∧
    diff [("/app", some ⟨[("db", "x2")], ["db"], some "alias/d"⟩)]
        [("/app", some ⟨[("db", "x1"), ("old", "o")], ["db"], some "alias/c"⟩)]
      = some ([Change.Set "/app/db" "x2" "x1" (some "alias/d"), Change.Delete "/app/old"],
          none) :=
  ⟨(diff_ignores_current_metadata [("/app", some ⟨[("db", "x2")], ["db"], some "alias/d"⟩)]
      [("/app", some ⟨[("db", "x1"), ("old", "o")], ["db"], some "alias/c"⟩)]
      [("/app", some ⟨[("db", "x1"), ("old", "o")], ["old"], none⟩)]
      (by decide) (by decide) (by decide)).1
      (List.Forall₂.cons ⟨rfl, rfl⟩ List.Forall₂.nil),
    by decide⟩

/-! ## Addresses: splitting at the last `/` -/

theorem splitLastSlash_eq_none : ∀ {cs : List Char}, splitLastSlash cs = none ↔ '/' ∉ cs
  | [] => by simp [splitLastSlash]
  | c :: cs => by
    have ih := @splitLastSlash_eq_none cs
    cases h : splitLastSlash cs with
    | some pk =>
      have hmem : '/' ∈ cs := by
        by_contra hn
        rw [ih.2 hn] at h
        cases h
      simp [splitLastSlash, h, hmem]
    | none =>
      have hn : '/' ∉ cs := ih.1 h
      by_cases hc : c = '/'
      · simp [splitLastSlash, h, hc]
      · have hc' : ¬ '/' = c := fun e => hc e.symm
        simp [splitLastSlash, h, hc, hc', hn]

theorem splitLastSlash_some : ∀ {cs path key : List Char},
    splitLastSlash cs = some (path, key) → cs = path ++ '/' :: key ∧ '/' ∉ key
  | [], _, _, h => by simp [splitLastSlash] at h
  | c :: cs, path, key, h => by
    cases hs : splitLastSlash cs with
    | some pk =>
      obtain ⟨p', k'⟩ := pk
      simp only [splitLastSlash, hs, Option.some.injEq, Prod.mk.injEq] at h
      obtain ⟨rfl, rfl⟩ := h
      obtain ⟨h1, h2⟩ := splitLastSlash_some hs
      exact ⟨by rw [h1]; rfl, h2⟩
    | none =>
      simp only [splitLastSlash, hs] at h
      split_ifs at h with hc
      simp only [Option.some.injEq, Prod.mk.injEq] at h
      obtain ⟨rfl, rfl⟩ := h
      exact ⟨by rw [hc]; rfl, splitLastSlash_eq_none.1 hs⟩

theorem splitLastSlash_append : ∀ (path : List Char) {key : List Char}, '/' ∉ key →
    splitLastSlash (path ++ '/' :: key) = some (path, key)
  | [], key, h => by
    simp [splitLastSlash, splitLastSlash_eq_none.2 h]
  | c :: path, key, h => by
    simp [splitLastSlash, splitLastSlash_append path h]

theorem address_toList (p k : String) : (address p k).toList = p.toList ++ '/' :: k.toList := by
  simp [address, String.toList, String.data_append]

/-- The address `path/key` splits back into `path` and `key` when the key holds no `/`. -/
theorem pathAndKey_address (p k : String) (hk : '/' ∉ k.toList) :
    pathAndKey (address p k) = some (p, k) := by
  unfold pathAndKey
  rw [address_toList, splitLastSlash_append _ hk]
  rfl

/-- An address that splits is `path/key`, and its key holds no `/`. -/
theorem pathAndKey_some {a p k : String} (h : pathAndKey a = some (p, k)) :
    a = address p k ∧ '/' ∉ k.toList := by
  unfold pathAndKey at h
  cases hs : splitLastSlash a.toList with
  | none => rw [hs] at h; cases h
  | some pk =>
    obtain ⟨p', k'⟩ := pk
    rw [hs] at h
    simp only [Option.some.injEq, Prod.mk.injEq] at h
    obtain ⟨rfl, rfl⟩ := h
    obtain ⟨h1, h2⟩ := splitLastSlash_some hs
    refine ⟨String.ext ?_, h2⟩
    show a.toList = (address (String.mk p') (String.mk k')).toList
    rw [address_toList]
    exact h1

theorem pathAndKey_isSome {a : String} (h : '/' ∈ a.toList) :
    ∃ p k, pathAndKey a = some (p, k) := by
  unfold pathAndKey
  cases hs : splitLastSlash a.toList with
  | none => exact absurd h (splitLastSlash_eq_none.1 hs)
  | some pk => exact ⟨_, _, rfl⟩

theorem pathAndKey_eq_none {a : String} (h : pathAndKey a = none) : '/' ∉ a.toList := by
  intro hm
  obtain ⟨p, k, hpk⟩ := pathAndKey_isSome hm
  rw [hpk] at h
  cases h

/-! ## Go maps: assignment -/

theorem lookupKey_append {V : Type} (j : String) (n : List (String × V)) :
    ∀ m : List (String × V),
      lookupKey j (m ++ n) =
        match lookupKey j m with
        | some v => some v
        | none => lookupKey j n
  | [] => rfl
  | (a, v) :: m => by
    by_cases h : a = j
    · simp [lookupKey, h]
    · simp [lookupKey, h, lookupKey_append j n m]

theorem lookupKey_map_replace {V : Type} (j k : String) (v : V) :
    ∀ m : List (String × V),
      lookupKey j (m.map (fun e => if e.1 = k then (k, v) else e)) =
        if j = k then (lookupKey k m).map (fun _ => v) else lookupKey j m
  | [] => by simp [lookupKey]
  | (a, w) :: m => by
    have ih := lookupKey_map_replace j k v m
    rw [List.map_cons]
    by_cases hak : a = k
    · rw [if_pos (show ((a, w) : String × V).1 = k from hak)]
      subst hak
      by_cases hj : a = j
      · subst hj
        simp [lookupKey]
      · have hj' : ¬ j = a := fun e => hj e.symm
        simp only [lookupKey, if_neg hj]
        rw [ih, if_neg hj', if_neg hj']
    · rw [if_neg (show ¬ ((a, w) : String × V).1 = k from hak)]
      by_cases haj : a = j
      · subst haj
        simp [lookupKey, hak]
      · simp only [lookupKey, if_neg haj, if_neg hak]
        exact ih

/-- A read after the assignment `m[k] = v`. -/
theorem lookupKey_mapSet {V : Type} (m : List (String × V)) (k j : String) (v : V) :
    lookupKey j (mapSet m k v) = if j = k then some v else lookupKey j m := by
  unfold mapSet
  cases h : lookupKey k m with
  | some w =>
    simp only [lookupKey_map_replace, h, Option.map_some']
  | none =>
    simp only [lookupKey_append]
    by_cases hj : j = k
    · subst hj
      simp [h, lookupKey]
    · have hj' : ¬ k = j := fun e => hj e.symm
      cases lookupKey j m <;> simp [lookupKey, hj, hj']

theorem keys_mapSet {V : Type} (m : List (String × V)) (k : String) (v : V) :
    (mapSet m k v).map Prod.fst =
      match lookupKey k m with
      | some _ => m.map Prod.fst
      | none => m.map Prod.fst ++ [k] := by
  unfold mapSet
  cases h : lookupKey k m with
  | some w =>
    simp only [List.map_map]
    apply List.map_congr_left
    intro e _
    by_cases he : e.1 = k <;> simp [Function.comp_def, he]
  | none => simp

theorem nodupKeys_mapSet {V : Type} {m : List (String × V)} (h : NodupKeys m) (k : String)
    (v : V) : NodupKeys (mapSet m k v) := by
  unfold NodupKeys at h ⊢
  rw [keys_mapSet]
  cases hl : lookupKey k m with
  | some w => exact h
  | none =>
    simp only
    refine List.Nodup.append h (List.nodup_singleton k) ?_
    intro a ha hk
    rw [List.mem_singleton] at hk
    subst hk
    obtain ⟨e, he, rfl⟩ := List.mem_map.1 ha
    exact lookupKey_eq_none.1 hl e.2 he

theorem mem_mapSet {V : Type} {m : List (String × V)} {k : String} {v : V} {x : String × V}
    (h : x ∈ mapSet m k v) : x = (k, v) ∨ x ∈ m := by
  unfold mapSet at h
  cases hl : lookupKey k m with
  | some w =>
    rw [hl] at h
    obtain ⟨e, he, rfl⟩ := List.mem_map.1 h
    by_cases hek : e.1 = k
    · left; simp [hek]
    · right; simpa [hek] using he
  | none =>
    rw [hl] at h
    rcases List.mem_append.1 h with h | h
    · exact Or.inr h
    · exact Or.inl (List.mem_singleton.1 h)

/-! ## The loop over the raw entries -/

theorem groupAt_mapSet (m : ParameterStates) (k j : String) (g : Option ParameterState) :
    groupAt (mapSet m k g) j = if j = k then g else groupAt m j := by
  unfold groupAt
  rw [lookupKey_mapSet]
  by_cases h : j = k
  · simp [h]
  · simp [h]

theorem noNilGroup_mapSet {m : ParameterStates} (h : NoNilGroup m) (k : String)
    (ps : ParameterState) : NoNilGroup (mapSet m k (some ps)) := by
  intro e he
  rcases mem_mapSet he with rfl | he
  · simp
  · exact h e he

theorem lookupKey_ne_some_none {p : ParameterStates} (hnn : NoNilGroup p) (q : String) :
    lookupKey q p ≠ some none := by
  intro h
  exact hnn _ (lookupKey_mem h) rfl

/-- The map after the test of line 106: the group of the path is there. -/
theorem ensure_group {p : ParameterStates} (hnn : NoNilGroup p) (q : String)
    (p1 : ParameterStates)
    (hp1 : p1 = match lookupKey q p with
      | some _ => p
      | none => mapSet p q (some ⟨[], [], none⟩)) :
    groupAt p1 q = some ((groupAt p q).getD ⟨[], [], none⟩) ∧
    (∀ j, j ≠ q → groupAt p1 j = groupAt p j) ∧
    (NodupKeys p → NodupKeys p1) ∧ NoNilGroup p1 := by
  cases hl : lookupKey q p with
  | none =>
    rw [hl] at hp1
    subst hp1
    refine ⟨?_, ?_, fun h => nodupKeys_mapSet h _ _, noNilGroup_mapSet hnn _ _⟩
    · rw [groupAt_mapSet, if_pos rfl]
      simp [groupAt, hl]
    · intro j hj
      rw [groupAt_mapSet, if_neg hj]
  | some g =>
    rw [hl] at hp1
    subst hp1
    cases g with
    | none => exact absurd hl (lookupKey_ne_some_none hnn q)
    | some ps =>
      refine ⟨?_, fun _ _ => rfl, fun h => h, hnn⟩
      simp [groupAt, hl]

/-- One raw entry with a valid address is merged, and the group at each path becomes what
`mergeGroup` says. -/
theorem mergeParameter_ok {p : ParameterStates} (hnn : NoNilGroup p) {e : Parameter}
    {q k : String} (hpk : pathAndKey e.Name = some (q, k)) :
    ∃ r, mergeParameter p e = Except.ok r ∧ (NodupKeys p → NodupKeys r) ∧ NoNilGroup r ∧
      ∀ j, groupAt r j = mergeGroup j (groupAt p j) e := by
  obtain ⟨h1, h2, h3, h4⟩ := ensure_group hnn q _ rfl
  unfold mergeParameter
  simp only [hpk]
  rw [h1]
  refine ⟨_, rfl, fun h => nodupKeys_mapSet (h3 h) _ _, ?_, ?_⟩
  · split_ifs
    · exact noNilGroup_mapSet h4 _ _
    · exact noNilGroup_mapSet h4 _ _
  · intro j
    rw [groupAt_mapSet]
    unfold mergeGroup
    simp only [hpk]
    by_cases hj : j = q
    · subst hj
      rw [if_pos rfl, if_pos rfl]
    · have hj' : ¬ q = j := fun h => hj h.symm
      rw [if_neg hj, if_neg hj', h2 j hj]

theorem mergeParameter_error {p : ParameterStates} {e : Parameter}
    (hpk : pathAndKey e.Name = none) : ∃ f, mergeParameter p e = Except.error f := by
  unfold mergeParameter
  rw [hpk]
  exact ⟨_, rfl⟩

/-- The raw entries with valid addresses are merged, and the group at each path is the fold
of `mergeGroup` over the entries. -/
theorem mergeParameters_ok : ∀ (entries : List Parameter) {p : ParameterStates},
    NoNilGroup p → ValidAddresses entries →
    ∃ r, mergeParameters p entries = Except.ok r ∧ (NodupKeys p → NodupKeys r) ∧
      NoNilGroup r ∧ ∀ j, groupAt r j = entries.foldl (mergeGroup j) (groupAt p j)
  | [], p, hnn, _ => ⟨p, rfl, fun h => h, hnn, fun _ => rfl⟩
  | e :: entries, p, hnn, hv => by
    obtain ⟨q, k, hpk⟩ := pathAndKey_isSome (hv e (List.mem_cons_self _ _))
    obtain ⟨r, hr, hr1, hr2, hr3⟩ := mergeParameter_ok hnn hpk
    obtain ⟨s, hs, hs1, hs2, hs3⟩ := mergeParameters_ok entries hr2
      (fun x hx => hv x (List.mem_cons_of_mem _ hx))
    refine ⟨s, ?_, fun h => hs1 (hr1 h), hs2, ?_⟩
    · simp only [mergeParameters, hr]
      exact hs
    · intro j
      rw [hs3 j, hr3 j]
      rfl

/-- When the loop over the raw entries ends with a map, every address was valid. -/
theorem validAddresses_of_mergeParameters : ∀ (entries : List Parameter)
    {p r : ParameterStates}, mergeParameters p entries = Except.ok r → ValidAddresses entries
  | [], _, _, _ => fun _ h => by simp at h
  | e :: entries, p, r, h => by
    cases hm : mergeParameter p e with
    | error f =>
      simp only [mergeParameters, hm] at h
      cases h
    | ok s =>
      simp only [mergeParameters, hm] at h
      have hrest := validAddresses_of_mergeParameters entries h
      have he : '/' ∈ e.Name.toList := by
        by_contra hn
        cases hpk : pathAndKey e.Name with
        | none =>
          obtain ⟨f, hf⟩ := mergeParameter_error (p := p) hpk
          rw [hf] at hm
          cases hm
        | some pk =>
          obtain ⟨h1, _⟩ := pathAndKey_some (a := e.Name) (p := pk.1) (k := pk.2) hpk
          apply hn
          rw [h1, address_toList]
          simp
      intro x hx
      rcases List.mem_cons.1 hx with rfl | hx
      · exact he
      · exact hrest x hx

/-! ## The group that the raw entries build at a path -/

theorem secretKeys_cons (e : Parameter) (entries : List Parameter) (j : String) :
    secretKeys (e :: entries) j = secretKeys [e] j ++ secretKeys entries j := by
  unfold secretKeys
  rw [← List.filterMap_append]
  rfl

theorem groupKeys_mergeGroup (j : String) (g : Option ParameterState) (e : Parameter) :
    groupKeys (mergeGroup j g e) = groupKeys g ++ secretKeys [e] j := by
  unfold mergeGroup secretKeys Parameter.isSecret
  cases hpk : pathAndKey e.Name with
  | none => simp [hpk]
  | some pk =>
    obtain ⟨q, k⟩ := pk
    by_cases hq : q = j
    · by_cases hs : e.Type_ = "SecureString"
      · cases g <;> simp [hq, hs, hpk, groupKeys, List.filterMap_cons]
      · cases g <;> simp [hq, hs, hpk, groupKeys, List.filterMap_cons]
    · simp [hq, hpk, List.filterMap_cons]

theorem groupKeyId_mergeGroup (j : String) (g : Option ParameterState) (e : Parameter) :
    groupKeyId (mergeGroup j g e) = groupKeyId g := by
  unfold mergeGroup
  cases hpk : pathAndKey e.Name with
  | none => rfl
  | some pk =>
    obtain ⟨q, k⟩ := pk
    by_cases hq : q = j
    · by_cases hs : e.Type_ = "SecureString"
      · cases g <;> simp [hq, hs, groupKeyId]
      · cases g <;> simp [hq, hs, groupKeyId]
    · simp [hq]

theorem groupValue_mergeGroup (j k : String) (g : Option ParameterState) (e : Parameter) :
    groupValue (mergeGroup j g e) k =
      if pathAndKey e.Name = some (j, k) then some e.Value else groupValue g k := by
  unfold mergeGroup
  cases hpk : pathAndKey e.Name with
  | none => simp
  | some pk =>
    obtain ⟨q, k'⟩ := pk
    by_cases hq : q = j
    · subst hq
      by_cases hk : k' = k
      · subst hk
        by_cases hs : e.Type_ = "SecureString"
        · cases g <;> simp [hs, groupValue, lookupKey_mapSet]
        · cases g <;> simp [hs, groupValue, lookupKey_mapSet]
      · have hk' : ¬ k = k' := fun h => hk h.symm
        by_cases hs : e.Type_ = "SecureString"
        · cases g <;> simp [hs, hk, hk', groupValue, lookupKey_mapSet, lookupKey]
        · cases g <;> simp [hs, hk, hk', groupValue, lookupKey_mapSet, lookupKey]
    · simp [hq]

theorem nodupKeys_mergeGroup (j : String) (g : Option ParameterState) (e : Parameter)
    (h : ∀ ps, g = some ps → NodupKeys ps.Parameters) :
    ∀ ps, mergeGroup j g e = some ps → NodupKeys ps.Parameters := by
  intro ps hps
  unfold mergeGroup at hps
  cases hpk : pathAndKey e.Name with
  | none =>
    rw [hpk] at hps
    exact h ps hps
  | some pk =>
    obtain ⟨q, k⟩ := pk
    rw [hpk] at hps
    by_cases hq : q = j
    · simp only [hq, if_true, Option.some.injEq] at hps
      have hbase : NodupKeys (g.getD ⟨[], [], none⟩).Parameters := by
        cases g with
        | none => simp [NodupKeys]
        | some x => exact h x rfl
      subst hps
      split_ifs
      · exact nodupKeys_mapSet hbase _ _
      · exact nodupKeys_mapSet hbase _ _
    · simp only [hq, if_false] at hps
      exact h ps hps

/-- The group that the fold of `mergeGroup` builds at a path: its `EncryptedKeys` grow by the
keys of the secret entries of the path in input order, its `EncryptionKey` is unchanged, and
its values are those of the last entry of each address. -/
theorem foldl_mergeGroup (j : String) : ∀ (entries : List Parameter)
    (g : Option ParameterState),
    groupKeys (entries.foldl (mergeGroup j) g) = groupKeys g ++ secretKeys entries j ∧
    groupKeyId (entries.foldl (mergeGroup j) g) = groupKeyId g ∧
    (∀ k, groupValue (entries.foldl (mergeGroup j) g) k
      = lastValue entries j k (groupValue g k)) ∧
    ((∀ ps, g = some ps → NodupKeys ps.Parameters) →
      ∀ ps, entries.foldl (mergeGroup j) g = some ps → NodupKeys ps.Parameters)
  | [], g => ⟨by simp [secretKeys], rfl, fun _ => rfl, fun h => h⟩
  | e :: entries, g => by
    obtain ⟨h1, h2, h3, h4⟩ := foldl_mergeGroup j entries (mergeGroup j g e)
    refine ⟨?_, ?_, ?_, ?_⟩
    · rw [List.foldl_cons, h1, groupKeys_mergeGroup, secretKeys_cons e entries j, List.append_assoc]
    · rw [List.foldl_cons, h2, groupKeyId_mergeGroup]
    · intro k
      rw [List.foldl_cons, h3 k, groupValue_mergeGroup]
      rfl
    · intro hg
      exact h4 (nodupKeys_mergeGroup j g e hg)

/-- A value of `lastValue` is the value of an entry of the list with that address. -/
theorem lastValue_some : ∀ (entries : List Parameter) {j k v : String} {init : Option String},
    lastValue entries j k init = some v →
      init = some v ∨ ∃ e ∈ entries, pathAndKey e.Name = some (j, k) ∧ e.Value = v
  | [], _, _, _, _, h => Or.inl h
  | e :: entries, j, k, v, init, h => by
    have h' : lastValue entries j k
        (if pathAndKey e.Name = some (j, k) then some e.Value else init) = some v := h
    rcases lastValue_some entries h' with h1 | ⟨x, hx, hx1, hx2⟩
    · split_ifs at h1 with hc
      · right
        exact ⟨e, List.mem_cons_self _ _, hc, Option.some.inj h1⟩
      · exact Or.inl h1
    · exact Or.inr ⟨x, List.mem_cons_of_mem _ hx, hx1, hx2⟩

/-- The address of an entry of the list has a value, that of an entry with this address. -/
theorem lastValue_of_mem : ∀ (entries : List Parameter) {j k : String} {e : Parameter}
    (init : Option String), e ∈ entries → pathAndKey e.Name = some (j, k) →
      ∃ x ∈ entries, pathAndKey x.Name = some (j, k) ∧
        lastValue entries j k init = some x.Value
  | [], _, _, _, _, h, _ => by simp at h
  | a :: entries, j, k, e, init, h, hpk => by
    have hstep : lastValue (a :: entries) j k init = lastValue entries j k
        (if pathAndKey a.Name = some (j, k) then some a.Value else init) := rfl
    by_cases hex : ∃ x ∈ entries, pathAndKey x.Name = some (j, k)
    · obtain ⟨x, hx, hxpk⟩ := hex
      obtain ⟨y, hy, hy1, hy2⟩ := lastValue_of_mem entries
        (if pathAndKey a.Name = some (j, k) then some a.Value else init) hx hxpk
      exact ⟨y, List.mem_cons_of_mem _ hy, hy1, hstep ▸ hy2⟩
    · have hae : a = e := by
        rcases List.mem_cons.1 h with h | h
        · exact h.symm
        · exact absurd ⟨e, h, hpk⟩ hex
      subst hae
      refine ⟨a, List.mem_cons_self _ _, hpk, ?_⟩
      rw [hstep, if_pos hpk]
      cases hl : lastValue entries j k (some a.Value) with
      | none =>
        exfalso
        have : ∀ (l : List Parameter) (w : String), lastValue l j k (some w) ≠ none := by
          intro l
          induction l with
          | nil => intro w h; cases h
          | cons b l ih =>
            intro w h
            have hb : lastValue (b :: l) j k (some w) = lastValue l j k
                (if pathAndKey b.Name = some (j, k) then some b.Value else some w) := rfl
            rw [hb] at h
            split_ifs at h
            · exact ih _ h
            · exact ih _ h
        exact this _ _ hl
      | some v =>
        rcases lastValue_some entries hl with h1 | ⟨x, hx, hx1, _⟩
        · exact h1.symm ▸ rfl
        · exact absurd ⟨x, hx, hx1⟩ hex

/-! ## The loop over the groups -/

theorem resolveGroup_ok {describe : String → List (Option String) × GoError}
    {e r : String × Option ParameterState} (h : resolveGroup describe e = Except.ok r) :
    r.1 = e.1 ∧ Resolved describe e.1 e.2 r.2 := by
  obtain ⟨q, g⟩ := e
  unfold resolveGroup at h
  cases g with
  | none => cases h
  | some ps =>
    simp only at h
    cases hk : ps.EncryptedKeys with
    | nil =>
      rw [hk] at h
      simp only [Except.ok.injEq] at h
      subst h
      exact ⟨rfl, ps, ps, rfl, rfl, rfl, rfl, by rw [hk]⟩
    | cons first others =>
      rw [hk] at h
      simp only at h
      cases herr : (describe (q ++ "/" ++ first)).2 with
      | some err => rw [herr] at h; simp only [Check] at h; cases h
      | none =>
        rw [herr] at h
        simp only [Check] at h
        cases hids : (describe (q ++ "/" ++ first)).1 with
        | nil => rw [hids] at h; cases h
        | cons keyId rest =>
          rw [hids] at h
          simp only [Except.ok.injEq] at h
          subst h
          refine ⟨rfl, ps, _, rfl, rfl, rfl, hk.symm, ?_⟩
          rw [hk]
          exact ⟨keyId, rest, Prod.ext hids herr, rfl⟩

theorem resolveGroups_ok {describe : String → List (Option String) × GoError} :
    ∀ {t r : ParameterStates}, resolveGroups describe t = Except.ok r →
      List.Forall₂ (fun e f => f.1 = e.1 ∧ Resolved describe e.1 e.2 f.2) t r
  | [], r, h => by
    simp only [resolveGroups, Except.ok.injEq] at h
    subst h
    exact List.Forall₂.nil
  | e :: t, r, h => by
    cases he : resolveGroup describe e with
    | error f => simp only [resolveGroups, he] at h; cases h
    | ok e' =>
      cases ht : resolveGroups describe t with
      | error f => simp only [resolveGroups, he, ht] at h; cases h
      | ok t' =>
        simp only [resolveGroups, he, ht, Except.ok.injEq] at h
        subst h
        exact List.Forall₂.cons (resolveGroup_ok he) (resolveGroups_ok ht)

theorem lookupKey_resolved {describe : String → List (Option String) × GoError}
    {t r : ParameterStates}
    (h : List.Forall₂ (fun e f => f.1 = e.1 ∧ Resolved describe e.1 e.2 f.2) t r)
    (q : String) :
    (lookupKey q t = none ∧ lookupKey q r = none) ∨
      ∃ g g', lookupKey q t = some g ∧ lookupKey q r = some g' ∧ Resolved describe q g g' := by
  induction h with
  | nil => exact Or.inl ⟨rfl, rfl⟩
  | @cons e f t r hef _ ih =>
    obtain ⟨a, g⟩ := e
    obtain ⟨b, g'⟩ := f
    obtain ⟨hab, hres⟩ := hef
    simp only at hab hres
    subst hab
    by_cases hq : b = q
    · subst hq
      exact Or.inr ⟨g, g', by simp [lookupKey], by simp [lookupKey], hres⟩
    · simpa [lookupKey, hq] using ih

/-- The group of the resolved map at a path, from the group of the map at that path. -/
theorem groupAt_resolved {describe : String → List (Option String) × GoError}
    {t r : ParameterStates}
    (h : List.Forall₂ (fun e f => f.1 = e.1 ∧ Resolved describe e.1 e.2 f.2) t r)
    (q : String) :
    (groupAt t q = none ∧ groupAt r q = none) ∨
      ∃ ps rs, groupAt t q = some ps ∧ groupAt r q = some rs ∧
        Resolved describe q (some ps) (some rs) := by
  rcases lookupKey_resolved h q with ⟨h1, h2⟩ | ⟨g, g', h1, h2, hres⟩
  · left
    simp [groupAt, h1, h2]
  · right
    obtain ⟨ps, rs, rfl, rfl, h3⟩ := hres
    exact ⟨ps, rs, by simp [groupAt, h1], by simp [groupAt, h2], ps, rs, rfl, rfl, h3⟩

theorem isTree_resolved {describe : String → List (Option String) × GoError}
    {t r : ParameterStates}
    (h : List.Forall₂ (fun e f => f.1 = e.1 ∧ Resolved describe e.1 e.2 f.2) t r)
    (ht : IsTree t) : IsTree r := by
  have hkeys : r.map Prod.fst = t.map Prod.fst := by
    clear ht
    induction h with
    | nil => rfl
    | cons hef _ ih => simp [hef.1, ih]
  have hinner : (∀ e ∈ t, ∀ ps, e.2 = some ps → NodupKeys ps.Parameters) →
      ∀ f ∈ r, f.2 ≠ none ∧ ∀ rs, f.2 = some rs → NodupKeys rs.Parameters := by
    clear ht hkeys
    induction h with
    | nil => intro _ f hf; simp at hf
    | @cons e f t r hef _ ih =>
      intro hall x hx
      rcases List.mem_cons.1 hx with rfl | hx
      · obtain ⟨_, ps, rs, h1, h2, h3, _⟩ := hef
        rw [h2]
        refine ⟨by simp, ?_⟩
        intro rs' hrs
        cases hrs
        rw [h3]
        exact hall e (List.mem_cons_self _ _) ps h1
      · exact ih (fun y hy => hall y (List.mem_cons_of_mem _ hy)) x hx
  refine ⟨⟨?_, fun f hf => (hinner ht.1.2 f hf).2⟩, fun f hf => (hinner ht.1.2 f hf).1⟩
  unfold NodupKeys
  rw [hkeys]
  exact ht.1.1

/-- The loop over the groups goes through when `describe` returns a result for the first
encrypted key of every group that has one. -/
theorem resolveGroups_succeeds {describe : String → List (Option String) × GoError} :
    ∀ {t : ParameterStates}, NoNilGroup t →
      (∀ e ∈ t, ∀ ps first others, e.2 = some ps → ps.EncryptedKeys = first :: others →
        ∃ keyId rest, describe (address e.1 first) = (keyId :: rest, none)) →
      ∃ r, resolveGroups describe t = Except.ok r
  | [], _, _ => ⟨[], rfl⟩
  | (q, g) :: t, hnn, hall => by
    obtain ⟨r, hr⟩ := resolveGroups_succeeds (t := t)
      (fun e he => hnn e (List.mem_cons_of_mem _ he))
      (fun e he => hall e (List.mem_cons_of_mem _ he))
    cases g with
    | none => exact absurd rfl (hnn (q, none) (List.mem_cons_self _ _))
    | some ps =>
      cases hk : ps.EncryptedKeys with
      | nil =>
        exact ⟨(q, some ps) :: r, by simp [resolveGroups, resolveGroup, hk, hr]⟩
      | cons first others =>
        obtain ⟨keyId, rest, hd⟩ := hall (q, some ps) (List.mem_cons_self _ _) ps first others
          rfl hk
        have hd' : describe (q ++ "/" ++ first) = (keyId :: rest, none) := hd
        exact ⟨(q, some { ps with EncryptionKey := keyId }) :: r,
          by simp [resolveGroups, resolveGroup, Check, hk, hd', hr]⟩

/-- The loop over the groups stops without a map when `describe` returns no result for the
first encrypted key of a group. -/
theorem resolveGroups_fails {describe : String → List (Option String) × GoError} :
    ∀ {t : ParameterStates},
      (∃ e ∈ t, ∃ ps first others, e.2 = some ps ∧ ps.EncryptedKeys = first :: others ∧
        (describe (address e.1 first)).1 = []) →
      ∃ f, resolveGroups describe t = Except.error f
  | [], h => by
    obtain ⟨e, he, _⟩ := h
    simp at he
  | x :: t, h => by
    cases hx : resolveGroup describe x with
    | error f => exact ⟨f, by simp [resolveGroups, hx]⟩
    | ok x' =>
      obtain ⟨e, he, ps, first, others, hps, hk, hd⟩ := h
      rcases List.mem_cons.1 he with rfl | he
      · exfalso
        obtain ⟨q, g⟩ := e
        simp only at hps
        subst hps
        have hd' : (describe (q ++ "/" ++ first)).1 = [] := hd
        cases herr : (describe (q ++ "/" ++ first)).2 with
        | some err => simp [resolveGroup, Check, hk, herr] at hx
        | none => simp [resolveGroup, Check, hk, hd', herr] at hx
      · obtain ⟨f, hf⟩ := resolveGroups_fails (t := t) ⟨e, he, ps, first, others, hps, hk, hd⟩
        exact ⟨f, by simp [resolveGroups, hx, hf]⟩

/-- The loop over groups without encrypted keys returns the map as it is and does not call
`describe`. -/
theorem resolveGroups_of_no_secret (describe : String → List (Option String) × GoError) :
    ∀ {t : ParameterStates}, (∀ e ∈ t, ∃ ps, e.2 = some ps ∧ ps.EncryptedKeys = []) →
      resolveGroups describe t = Except.ok t
  | [], _ => rfl
  | (q, g) :: t, h => by
    obtain ⟨ps, hps, hk⟩ := h (q, g) (List.mem_cons_self _ _)
    simp only at hps
    subst hps
    have ih := resolveGroups_of_no_secret describe (t := t)
      (fun e he => h e (List.mem_cons_of_mem _ he))
    simp [resolveGroups, resolveGroup, hk, ih]

/-! ## The tree that `buildFromSSMParameters` builds from the empty tree -/

/-- The map after the loop over the raw entries, started from the empty map. -/
theorem merged_spec {entries : List Parameter} {m : ParameterStates}
    (h : mergeParameters [] entries = Except.ok m) :
    ValidAddresses entries ∧ IsTree m ∧
      ∀ q, groupAt m q = entries.foldl (mergeGroup q) none := by
  have hv := validAddresses_of_mergeParameters entries h
  obtain ⟨r, hr, hr1, hr2, hr3⟩ := mergeParameters_ok entries (p := [])
    (fun _ he => by simp at he) hv
  rw [h] at hr
  cases hr
  have hnd : NodupKeys m := hr1 (by simp [NodupKeys])
  refine ⟨hv, ⟨⟨hnd, ?_⟩, hr2⟩, hr3⟩
  rintro ⟨q, g⟩ he ps hps
  simp only at hps
  subst hps
  have hg := groupAt_of_mem hnd he
  rw [hr3 q] at hg
  exact (foldl_mergeGroup q entries none).2.2.2 (fun _ hn => by cases hn) ps hg

theorem secretKeys_eq_nil {entries : List Parameter}
    (h : ∀ e ∈ entries, e.isSecret = false) (q : String) : secretKeys entries q = [] := by
  unfold secretKeys
  rw [List.filterMap_eq_nil_iff]
  intro e he
  cases hpk : pathAndKey e.Name with
  | none => rfl
  | some pk => simp [h e he]

/-- A secret entry of the list gives its path a first encrypted key. -/
theorem secretKeys_ne_nil {entries : List Parameter} {e : Parameter} {q k : String}
    (he : e ∈ entries) (hpk : pathAndKey e.Name = some (q, k)) (hs : e.isSecret = true) :
    k ∈ secretKeys entries q := by
  unfold secretKeys
  rw [List.mem_filterMap]
  exact ⟨e, he, by simp [hpk, hs]⟩

theorem mem_secretKeys {entries : List Parameter} {q k : String}
    (h : k ∈ secretKeys entries q) :
    ∃ e ∈ entries, pathAndKey e.Name = some (q, k) ∧ e.isSecret = true := by
  unfold secretKeys at h
  rw [List.mem_filterMap] at h
  obtain ⟨e, he, hk⟩ := h
  cases hpk : pathAndKey e.Name with
  | none => rw [hpk] at hk; cases hk
  | some pk =>
    obtain ⟨q', k'⟩ := pk
    rw [hpk] at hk
    simp only at hk
    split_ifs at hk with hc
    cases hk
    exact ⟨e, he, by rw [hpk, hc.1], hc.2⟩

/-- What a successful run of `buildFromSSMParameters` from the empty tree returns: a tree
whose group at each path holds the keys of the secret entries of the path in input order,
the value of the last entry of each address, and the `KeyId` first described for the first
encrypted key. -/
theorem build_spec {getSSMParameters : String → List Parameter}
    {describe : String → List (Option String) × GoError} {paths : List String}
    {t : ParameterStates}
    (h : buildFromSSMParameters getSSMParameters describe [] paths = Except.ok t) :
    ValidAddresses (paths.flatMap getSSMParameters) ∧ IsTree t ∧
      ∀ q, groupKeys (groupAt t q) = secretKeys (paths.flatMap getSSMParameters) q ∧
        (∀ k, groupValue (groupAt t q) k
          = lastValue (paths.flatMap getSSMParameters) q k none) ∧
        match secretKeys (paths.flatMap getSSMParameters) q with
        | [] => groupKeyId (groupAt t q) = none
        | first :: _ =>
          ∃ keyId rest, describe (address q first) = (keyId :: rest, none) ∧
            groupKeyId (groupAt t q) = keyId := by
  unfold buildFromSSMParameters at h
  simp only at h
  cases hm : mergeParameters [] (paths.flatMap getSSMParameters) with
  | error f => rw [hm] at h; cases h
  | ok m =>
    rw [hm] at h
    simp only at h
    obtain ⟨hv, htree, hgroup⟩ := merged_spec hm
    have hall := resolveGroups_ok h
    refine ⟨hv, isTree_resolved hall htree, ?_⟩
    intro q
    obtain ⟨f1, f2, f3, _⟩ := foldl_mergeGroup q (paths.flatMap getSSMParameters) none
    rw [← hgroup q] at f1 f2 f3
    simp only [groupKeys, groupKeyId, groupValue, List.nil_append] at f1 f2 f3
    rcases groupAt_resolved hall q with ⟨h1, h2⟩ | ⟨ps, rs, h1, h2, hres⟩
    · rw [h1] at f1 f2 f3
      rw [h2]
      simp only at f1
      rw [← f1]
      exact ⟨rfl, f3, rfl⟩
    · obtain ⟨ps', rs', hps, hrs, hpar, hkeys, hid⟩ := hres
      cases hps
      cases hrs
      rw [h1] at f1 f2 f3
      rw [h2]
      simp only at f1 f2 f3
      refine ⟨by simp only [groupKeys]; rw [hkeys, f1], ?_, ?_⟩
      · intro k
        simp only [groupValue]
        rw [hpar]
        exact f3 k
      · rw [← f1]
        cases hk : ps.EncryptedKeys with
        | nil =>
          rw [hk] at hid
          simp only [groupKeyId]
          rw [hid, f2]
        | cons first others =>
          rw [hk] at hid
          exact hid

/-- The run from the empty tree returns a tree when every address is valid and `describe`
returns a result for the first secret key of every path. -/
theorem build_succeeds {getSSMParameters : String → List Parameter}
    {describe : String → List (Option String) × GoError} {paths : List String}
    (hv : ValidAddresses (paths.flatMap getSSMParameters))
    (hd : ∀ q first others, secretKeys (paths.flatMap getSSMParameters) q = first :: others →
      ∃ keyId rest, describe (address q first) = (keyId :: rest, none)) :
    ∃ t, buildFromSSMParameters getSSMParameters describe [] paths = Except.ok t := by
  obtain ⟨m, hm, _, _, _⟩ := mergeParameters_ok (paths.flatMap getSSMParameters) (p := [])
    (fun _ he => by simp at he) hv
  obtain ⟨_, htree, hgroup⟩ := merged_spec hm
  obtain ⟨r, hr⟩ := @resolveGroups_succeeds describe m htree.2 (by
    rintro ⟨q, g⟩ he ps first others hps hk
    simp only at hps
    subst hps
    have hg := groupAt_of_mem htree.1.1 he
    have f1 := (foldl_mergeGroup q (paths.flatMap getSSMParameters) none).1
    rw [← hgroup q, hg] at f1
    simp only [groupKeys, List.nil_append] at f1
    exact hd q first others (by rw [← f1, hk]))
  refine ⟨r, ?_⟩
  unfold buildFromSSMParameters
  simp only [hm]
  exact hr

/-- The run from the empty tree stops without a tree when `describe` returns no result for
the first secret key of a path. -/
theorem build_fails {getSSMParameters : String → List Parameter}
    {describe : String → List (Option String) × GoError} {paths : List String}
    {q first : String} {others : List String}
    (hk : secretKeys (paths.flatMap getSSMParameters) q = first :: others)
    (hd : (describe (address q first)).1 = []) :
    ∃ f, buildFromSSMParameters getSSMParameters describe [] paths = Except.error f := by
  unfold buildFromSSMParameters
  simp only
  cases hm : mergeParameters [] (paths.flatMap getSSMParameters) with
  | error f => exact ⟨f, rfl⟩
  | ok m =>
    simp only
    obtain ⟨_, htree, hgroup⟩ := merged_spec hm
    have f1 := (foldl_mergeGroup q (paths.flatMap getSSMParameters) none).1
    rw [← hgroup q, hk] at f1
    cases hg : groupAt m q with
    | none =>
      rw [hg] at f1
      simp [groupKeys] at f1
    | some ps =>
      rw [hg] at f1
      simp only [groupKeys, List.nil_append] at f1
      exact resolveGroups_fails ⟨(q, some ps), groupAt_mem hg, ps, first, others, rfl, f1, hd⟩

/-- The run from the empty tree over entries none of which is a secret returns a tree, the
same for every `describe`. -/
theorem build_of_no_secret {getSSMParameters : String → List Parameter}
    {paths : List String}
    (hv : ValidAddresses (paths.flatMap getSSMParameters))
    (hs : ∀ e ∈ paths.flatMap getSSMParameters, e.isSecret = false) :
    ∃ t, ∀ describe : String → List (Option String) × GoError,
      buildFromSSMParameters getSSMParameters describe [] paths = Except.ok t := by
  obtain ⟨m, hm, _, _, _⟩ := mergeParameters_ok (paths.flatMap getSSMParameters) (p := [])
    (fun _ he => by simp at he) hv
  obtain ⟨_, htree, hgroup⟩ := merged_spec hm
  refine ⟨m, fun describe => ?_⟩
  unfold buildFromSSMParameters
  simp only [hm]
  apply resolveGroups_of_no_secret
  rintro ⟨q, g⟩ he
  cases g with
  | none => exact absurd rfl (htree.2 _ he)
  | some ps =>
    refine ⟨ps, rfl, ?_⟩
    have hg := groupAt_of_mem htree.1.1 he
    have f1 := (foldl_mergeGroup q (paths.flatMap getSSMParameters) none).1
    rw [← hgroup q, hg, secretKeys_eq_nil hs] at f1
    simpa [groupKeys] using f1

/-! ## Symmetry of construction (C14) -/

/-- With no duplicate addresses, an entry of the list is known by its address. -/
theorem entry_unique {entries : List Parameter} (hnd : (entries.map Parameter.Name).Nodup)
    {e x : Parameter} (he : e ∈ entries) (hx : x ∈ entries) {q k : String}
    (hpe : pathAndKey e.Name = some (q, k)) (hpx : pathAndKey x.Name = some (q, k)) :
    x = e := by
  apply List.inj_on_of_nodup_map hnd hx he
  rw [(pathAndKey_some hpe).1, (pathAndKey_some hpx).1]

/-- The triples of the tree built from a list of raw entries without duplicate addresses
are the triples of the entries. -/
theorem flatten_build {getSSMParameters : String → List Parameter}
    {describe : String → List (Option String) × GoError} {paths : List String} {t : ParameterStates}
    (hnd : ((paths.flatMap getSSMParameters).map Parameter.Name).Nodup)
    (h : buildFromSSMParameters getSSMParameters describe [] paths = Except.ok t)
    (x : String × String × Bool) :
    x ∈ flatten t ↔ x ∈ (paths.flatMap getSSMParameters).map Parameter.triple := by
  obtain ⟨hv, htree, hspec⟩ := build_spec h
  constructor
  · intro hx
    obtain ⟨it, hit, rfl⟩ := List.mem_map.1 hx
    obtain ⟨hg, hkv⟩ := mem_iterations.1 hit
    have hgroup := groupAt_of_mem htree.1.1 hg
    obtain ⟨hkeys, hval, _⟩ := hspec it.path
    rw [hgroup] at hkeys hval
    simp only [groupKeys] at hkeys
    have hv1 := hval it.key
    simp only [groupValue] at hv1
    rw [lookupKey_of_mem (htree.1.2 _ hg _ rfl) hkv] at hv1
    rcases lastValue_some _ hv1.symm with hn | ⟨e, he, hpe, hev⟩
    · cases hn
    · refine List.mem_map.2 ⟨e, he, ?_⟩
      have hsec : e.isSecret = decide (it.key ∈ it.ps.EncryptedKeys) := by
        rw [hkeys]
        by_cases hmem : it.key ∈ secretKeys (paths.flatMap getSSMParameters) it.path
        · obtain ⟨y, hy, hpy, hys⟩ := mem_secretKeys hmem
          rw [entry_unique hnd he hy hpe hpy] at hys
          simp [hys, hmem]
        · have : e.isSecret ≠ true := fun hs => hmem (secretKeys_ne_nil he hpe hs)
          simp [hmem, this]
      simp only [Parameter.triple, (pathAndKey_some hpe).1, hev, hsec]
  · intro hx
    obtain ⟨e, he, rfl⟩ := List.mem_map.1 hx
    obtain ⟨q, k, hpe⟩ := pathAndKey_isSome (hv e he)
    obtain ⟨y, hy, hpy, hlast⟩ := lastValue_of_mem _ none he hpe
    rw [entry_unique hnd he hy hpe hpy] at hlast
    obtain ⟨hkeys, hval, _⟩ := hspec q
    have hv1 := hval k
    rw [hlast] at hv1
    cases hg : groupAt t q with
    | none => rw [hg] at hv1; cases hv1
    | some ps =>
      rw [hg] at hv1 hkeys
      simp only [groupValue] at hv1
      simp only [groupKeys] at hkeys
      have hit : Iteration.mk q ps k e.Value ∈ iterations t :=
        mem_iterations.2 ⟨groupAt_mem hg, lookupKey_mem hv1⟩
      refine List.mem_map.2 ⟨_, hit, ?_⟩
      have hsec : decide (k ∈ ps.EncryptedKeys) = e.isSecret := by
        rw [hkeys]
        by_cases hmem : k ∈ secretKeys (paths.flatMap getSSMParameters) q
        · obtain ⟨z, hz, hpz, hzs⟩ := mem_secretKeys hmem
          rw [entry_unique hnd he hz hpe hpz] at hzs
          simp [hzs, hmem]
        · have : e.isSecret ≠ true := fun hs => hmem (secretKeys_ne_nil he hpe hs)
          simp [hmem, this]
      simp only [Parameter.triple, (pathAndKey_some hpe).1, hsec]

/-- C14: for a flat list of raw entries with no duplicate addresses, each address containing
a `/`, the tree that `buildFromSSMParameters` builds from the empty tree has as triples
(`path/key`, `values[key]`, `key` is in `encryptedKeys`) exactly the input triples, and the
tree built from any permutation of the list has the same triples; the trees are built
whenever `describe` returns a result for every address. -/
theorem construction_symmetry (getSSMParameters : String → List Parameter)
    (describe : String → List (Option String) × GoError) (paths : List String)
    (entries : List Parameter) (hentries : paths.flatMap getSSMParameters = entries)
    (hnd : (entries.map Parameter.Name).Nodup) (hvalid : ValidAddresses entries) :
    (∀ t, buildFromSSMParameters getSSMParameters describe [] paths = Except.ok t →
      ∀ x, x ∈ flatten t ↔ x ∈ entries.map Parameter.triple) ∧
    (∀ (getSSMParameters' : String → List Parameter) (paths' : List String) t t',
      (paths'.flatMap getSSMParameters').Perm entries →
      buildFromSSMParameters getSSMParameters describe [] paths = Except.ok t →
      buildFromSSMParameters getSSMParameters' describe [] paths' = Except.ok t' →
      ∀ x, x ∈ flatten t' ↔ x ∈ flatten t) ∧
    ((∀ a, ∃ keyId rest, describe a = (keyId :: rest, none)) →
      (∃ t, buildFromSSMParameters getSSMParameters describe [] paths = Except.ok t) ∧
      ∀ (getSSMParameters' : String → List Parameter) (paths' : List String),
        (paths'.flatMap getSSMParameters').Perm entries →
        ∃ t', buildFromSSMParameters getSSMParameters' describe [] paths' = Except.ok t') := by
  subst hentries
  refine ⟨fun t ht => flatten_build hnd ht, ?_, ?_⟩
  · intro getSSMParameters' paths' t t' hperm ht ht' x
    have hnd' : ((paths'.flatMap getSSMParameters').map Parameter.Name).Nodup :=
      ((hperm.map Parameter.Name).nodup_iff).2 hnd
    rw [flatten_build hnd' ht' x, flatten_build hnd ht x]
    exact (hperm.map Parameter.triple).mem_iff
  · intro hdescribe
    refine ⟨build_succeeds hvalid (fun q first _ _ => hdescribe (address q first)), ?_⟩
    intro getSSMParameters' paths' hperm
    exact build_succeeds (fun e he => hvalid e (hperm.mem_iff.1 he))
      (fun q first _ _ => hdescribe (address q first))

theorem construction_symmetry_witness :
    buildFromSSMParameters
        (fun _ => [⟨"/app/db", "x", "SecureString"⟩, ⟨"/app/cache", "y", "String"⟩,
          ⟨"/svc/env/tok", "t", "SecureString"⟩])
        (fun a => ([some ("key-of-" ++ a)], none)) [] ["/"]
      = Except.ok [("/app", some ⟨[("db", "x"), ("cache", "y")], ["db"],
            some "key-of-/app/db"⟩),
          ("/svc/env", some ⟨[("tok", "t")], ["tok"], some "key-of-/svc/env/tok"⟩)] ∧
    flatten [("/app", some ⟨[("db", "x"), ("cache", "y")], ["db"], some "key-of-/app/db"⟩),
        ("/svc/env", some ⟨[("tok", "t")], ["tok"], some "key-of-/svc/env/tok"⟩)]
      = [("/app/db", "x", true), ("/app/cache", "y", false), ("/svc/env/tok", "t", true)] ∧
    ∀ t, buildFromSSMParameters
        (fun _ => [⟨"/app/db", "x", "SecureString"⟩, ⟨"/app/cache", "y", "String"⟩,
          ⟨"/svc/env/tok", "t", "SecureString"⟩])
        (fun a => ([some ("key-of-" ++ a)], none)) [] ["/"] = Except.ok t →
      ∀ x, x ∈ flatten t ↔
        x ∈ List.map Parameter.triple [⟨"/app/db", "x", "SecureString"⟩,
          ⟨"/app/cache", "y", "String"⟩, ⟨"/svc/env/tok", "t", "SecureString"⟩] :=
  ⟨rfl, by decide,
    (construction_symmetry
      (fun _ => [⟨"/app/db", "x", "SecureString"⟩, ⟨"/app/cache", "y", "String"⟩,
        ⟨"/svc/env/tok", "t", "SecureString"⟩])
      (fun a => ([some ("key-of-" ++ a)], none)) ["/"] _ rfl (by decide) (by decide)).1⟩

/-! ## Resolution of the encryption key id (C15) -/

/-- C15, as stated, fails: for the single secret entry `/app/db` and a `describe` whose one
result carries no key id (a nil `KeyId`), `buildFromSSMParameters` returns a tree whose group
`/app` has `EncryptedKeys = [db]` and no `EncryptionKey`. -/
theorem encryption_key_resolution_counterexample :
    buildFromSSMParameters (fun _ => [⟨"/app/db", "x", "SecureString"⟩])
        (fun _ => ([none], none)) [] ["/app"]
      = Except.ok [("/app", some ⟨[("db", "x")], ["db"], none⟩)] ∧
    (ParameterState.mk [("db", "x")] ["db"] none).EncryptedKeys ≠ [] ∧
    (ParameterState.mk [("db", "x")] ["db"] none).EncryptionKey.isSome = false :=
  ⟨rfl, by decide, rfl⟩

/-- C15, amended: in the tree that `buildFromSSMParameters` builds from the empty tree, a
group with a secret entry has as `EncryptionKey` the `KeyId` of the first result that
`describe` returns for the address `path/k0`, copied as it is, `k0` being the key of the
first secret entry of the path in input order, which is `EncryptedKeys[0]`; a group with no
secret entry has no `EncryptionKey`; so the key id is present exactly when `EncryptedKeys` is
non-empty and that first result carries a key id.  The tree is built whenever every address
contains a `/` and `describe` returns a result. -/
theorem encryption_key_resolution (getSSMParameters : String → List Parameter)
    (describe : String → List (Option String) × GoError) (paths : List String)
    (entries : List Parameter) (hentries : paths.flatMap getSSMParameters = entries) :
    (ValidAddresses entries → (∀ a, ∃ keyId rest, describe a = (keyId :: rest, none)) →
      ∃ t, buildFromSSMParameters getSSMParameters describe [] paths = Except.ok t) ∧
    (∀ t, buildFromSSMParameters getSSMParameters describe [] paths = Except.ok t →
      ∀ q ps, groupAt t q = some ps →
        ps.EncryptedKeys = secretKeys entries q ∧
        (∀ first others, ps.EncryptedKeys = first :: others →
          ∃ keyId rest, describe (address q first) = (keyId :: rest, none) ∧
            ps.EncryptionKey = keyId) ∧
        (ps.EncryptedKeys = [] → ps.EncryptionKey = none) ∧
        (ps.EncryptionKey.isSome ↔
          ∃ first others id rest, ps.EncryptedKeys = first :: others ∧
            describe (address q first) = (some id :: rest, none))) := by
  subst hentries
  constructor
  · intro hvalid hdescribe
    exact build_succeeds hvalid (fun q first _ _ => hdescribe (address q first))
  · intro t ht q ps hg
    obtain ⟨_, _, hspec⟩ := build_spec ht
    obtain ⟨hkeys, _, hid⟩ := hspec q
    rw [hg] at hkeys hid
    simp only [groupKeys, groupKeyId] at hkeys hid
    rw [← hkeys] at hid
    refine ⟨hkeys, ?_, ?_, ?_⟩
    · intro first others hk
      rw [hk] at hid
      exact hid
    · intro hk
      rw [hk] at hid
      exact hid
    · cases hk : ps.EncryptedKeys with
      | nil =>
        rw [hk] at hid
        simp only at hid
        simp [hid]
      | cons first others =>
        rw [hk] at hid
        obtain ⟨keyId, rest, hd, hkid⟩ := hid
        rw [hkid]
        constructor
        · intro hsome
          obtain ⟨id, hidv⟩ := Option.isSome_iff_exists.1 hsome
          exact ⟨first, others, id, rest, rfl, by rw [hd, hidv]⟩
        · rintro ⟨first', others', id, rest', hcons, hd'⟩
          simp only [List.cons.injEq] at hcons
          rw [← hcons.1, hd] at hd'
          simp only [Prod.mk.injEq, List.cons.injEq] at hd'
          rw [hd'.1.1]
          rfl

theorem encryption_key_resolution_witness :
    buildFromSSMParameters
        (fun _ => [⟨"/app/cache", "y", "String"⟩, ⟨"/app/pw", "z", "SecureString"⟩,
          ⟨"/app/db", "x", "SecureString"⟩, ⟨"/plain/a", "b", "String"⟩])
        (fun a => ([some ("key-of-" ++ a)], none)) [] ["/"]
      = Except.ok [("/app", some ⟨[("cache", "y"), ("pw", "z"), ("db", "x")], ["pw", "db"],
            some "key-of-/app/pw"⟩),
          ("/plain", some ⟨[("a", "b")], [], none⟩)] ∧
    ∃ t, buildFromSSMParameters
        (fun _ => [⟨"/app/cache", "y", "String"⟩, ⟨"/app/pw", "z", "SecureString"⟩,
          ⟨"/app/db", "x", "SecureString"⟩, ⟨"/plain/a", "b", "String"⟩])
        (fun a => ([some ("key-of-" ++ a)], none)) [] ["/"] = Except.ok t :=
  ⟨rfl,
    (encryption_key_resolution
      (fun _ => [⟨"/app/cache", "y", "String"⟩, ⟨"/app/pw", "z", "SecureString"⟩,
        ⟨"/app/db", "x", "SecureString"⟩, ⟨"/plain/a", "b", "String"⟩])
      (fun a => ([some ("key-of-" ++ a)], none)) ["/"] _ rfl).1 (by decide)
      (fun a => ⟨_, _, rfl⟩)⟩

/-! ## Failure of the resolution (C16) -/

/-- C16: when a path has a secret entry and `describe` returns zero results for the address
of the first encrypted key of its group, `buildFromSSMParameters` from the empty tree stops
with a failure and returns no tree; and on a list with no secret entry, every address
containing a `/`, it returns a tree, the same for every `describe`, which is never called. -/
theorem resolution_failure_is_fatal (getSSMParameters : String → List Parameter)
    (describe : String → List (Option String) × GoError) (paths : List String)
    (entries : List Parameter) (hentries : paths.flatMap getSSMParameters = entries) :
    (∀ q first,
      (∃ e ∈ entries, ∃ k, pathAndKey e.Name = some (q, k) ∧ e.isSecret = true) →
      (secretKeys entries q).head? = some first →
      (describe (address q first)).1 = [] →
      (∃ f, buildFromSSMParameters getSSMParameters describe [] paths = Except.error f) ∧
        ∀ t, buildFromSSMParameters getSSMParameters describe [] paths ≠ Except.ok t) ∧
    (ValidAddresses entries → (∀ e ∈ entries, e.isSecret = false) →
      ∃ t, ∀ describe' : String → List (Option String) × GoError,
        buildFromSSMParameters getSSMParameters describe' [] paths = Except.ok t) := by
  subst hentries
  constructor
  · intro q first _ hhead hd
    have hk : ∃ others, secretKeys (paths.flatMap getSSMParameters) q = first :: others := by
      cases hs : secretKeys (paths.flatMap getSSMParameters) q with
      | nil => rw [hs] at hhead; cases hhead
      | cons a others =>
        rw [hs] at hhead
        simp only [List.head?_cons, Option.some.injEq] at hhead
        exact ⟨others, by rw [hhead]⟩
    obtain ⟨others, hk⟩ := hk
    obtain ⟨f, hf⟩ := @build_fails getSSMParameters describe paths q first others hk hd
    refine ⟨⟨f, hf⟩, ?_⟩
    intro t ht
    rw [hf] at ht
    cases ht
  · intro hvalid hs
    exact build_of_no_secret hvalid hs

theorem resolution_failure_is_fatal_witness :
    buildFromSSMParameters
        (fun _ => [⟨"/app/cache", "y", "String"⟩, ⟨"/app/db", "x", "SecureString"⟩])
        (fun _ => ([], none)) [] ["/"] = Except.error BuildFailure.indexOutOfRange ∧
    ((∃ f, buildFromSSMParameters
        (fun _ => [⟨"/app/cache", "y", "String"⟩, ⟨"/app/db", "x", "SecureString"⟩])
        (fun _ => ([], none)) [] ["/"] = Except.error f) ∧
      ∀ t, buildFromSSMParameters
        (fun _ => [⟨"/app/cache", "y", "String"⟩, ⟨"/app/db", "x", "SecureString"⟩])
        (fun _ => ([], none)) [] ["/"] ≠ Except.ok t) :=
  ⟨rfl,
    (resolution_failure_is_fatal
      (fun _ => [⟨"/app/cache", "y", "String"⟩, ⟨"/app/db", "x", "SecureString"⟩])
      (fun _ => ([], none)) ["/"] _ rfl).1 "/app" "db"
      ⟨⟨"/app/db", "x", "SecureString"⟩, by decide, "db", by decide, by decide⟩
      (by decide) rfl⟩

/-! ## `EncryptedKeys` and the keys of the values (C17) -/

/-- The keys of the secret entries of a path are listed once each when no two secret entries
have the same address. -/
theorem nodup_secretKeys (q : String) : ∀ entries : List Parameter,
    ((entries.filter Parameter.isSecret).map Parameter.Name).Nodup →
      (secretKeys entries q).Nodup
  | [], _ => by simp [secretKeys]
  | e :: entries, h => by
    have hrest : ((entries.filter Parameter.isSecret).map Parameter.Name).Nodup := by
      by_cases hs : e.isSecret = true
      · rw [List.filter_cons, if_pos hs, List.map_cons] at h
        exact (List.nodup_cons.1 h).2
      · rw [List.filter_cons, if_neg hs] at h
        exact h
    have ih := nodup_secretKeys q entries hrest
    rw [secretKeys_cons]
    cases hpk : pathAndKey e.Name with
    | none =>
      have : secretKeys [e] q = [] := by simp [secretKeys, hpk]
      rw [this]
      exact ih
    | some pk =>
      obtain ⟨p, k⟩ := pk
      by_cases hc : p = q ∧ e.isSecret = true
      · have : secretKeys [e] q = [k] := by simp [secretKeys, hpk, hc]
        rw [this]
        refine List.nodup_cons.2 ⟨?_, ih⟩
        intro hmem
        obtain ⟨x, hx, hpx, hxs⟩ := mem_secretKeys hmem
        rw [List.filter_cons, if_pos hc.2, List.map_cons] at h
        apply (List.nodup_cons.1 h).1
        have hname : x.Name = e.Name := by
          rw [(pathAndKey_some hpx).1, (pathAndKey_some hpk).1, hc.1]
        rw [← hname]
        exact List.mem_map.2 ⟨x, List.mem_filter.2 ⟨hx, hxs⟩, rfl⟩
      · have : secretKeys [e] q = [] := by simp [secretKeys, hpk, hc]
        rw [this]
        exact ih

/-- C17, as stated, fails: from the raw entries of the paths `/app`, `/app`, which hold the
secret `/app/db` twice, `buildFromSSMParameters` builds the group `/app` with
`EncryptedKeys = [db, db]`. -/
theorem encrypted_keys_counterexample :
    ValidAddresses (["/app", "/app"].flatMap
      (fun _ => [(⟨"/app/db", "x", "SecureString"⟩ : Parameter)])) ∧
    buildFromSSMParameters (fun _ => [⟨"/app/db", "x", "SecureString"⟩])
        (fun _ => ([some "alias/k"], none)) [] ["/app", "/app"]
      = Except.ok [("/app", some ⟨[("db", "x")], ["db", "db"], some "alias/k"⟩)] ∧
    ¬ (["db", "db"] : List String).Nodup :=
  ⟨by decide, rfl, by decide⟩

/-- C17, amended: in every group of the tree that `buildFromSSMParameters` builds from the
empty tree, every element of `EncryptedKeys` is a key of the group's values; and when no two
secret entries of the list have the same address, no key occurs in `EncryptedKeys` more than
once.  The tree is built whenever every address contains a `/` and `describe` returns a
result. -/
theorem encrypted_keys_are_keys (getSSMParameters : String → List Parameter)
    (describe : String → List (Option String) × GoError) (paths : List String)
    (entries : List Parameter) (hentries : paths.flatMap getSSMParameters = entries) :
    (ValidAddresses entries → (∀ a, ∃ keyId rest, describe a = (keyId :: rest, none)) →
      ∃ t, buildFromSSMParameters getSSMParameters describe [] paths = Except.ok t) ∧
    (∀ t, buildFromSSMParameters getSSMParameters describe [] paths = Except.ok t →
      ∀ q ps, groupAt t q = some ps →
        (∀ k ∈ ps.EncryptedKeys, ∃ v, (k, v) ∈ ps.Parameters) ∧
        (((entries.filter Parameter.isSecret).map Parameter.Name).Nodup →
          ps.EncryptedKeys.Nodup)) := by
  subst hentries
  constructor
  · intro hvalid hdescribe
    exact build_succeeds hvalid (fun q first _ _ => hdescribe (address q first))
  · intro t ht q ps hg
    obtain ⟨_, _, hspec⟩ := build_spec ht
    obtain ⟨hkeys, hval, _⟩ := hspec q
    rw [hg] at hkeys hval
    simp only [groupKeys, groupValue] at hkeys hval
    constructor
    · intro k hk
      rw [hkeys] at hk
      obtain ⟨e, he, hpe, _⟩ := mem_secretKeys hk
      obtain ⟨x, _, _, hlast⟩ := lastValue_of_mem _ none he hpe
      rw [← hval k] at hlast
      exact ⟨x.Value, lookupKey_mem hlast⟩
    · intro hnd
      rw [hkeys]
      exact nodup_secretKeys q _ hnd

theorem encrypted_keys_are_keys_witness :
    buildFromSSMParameters
        (fun _ => [⟨"/app/cache", "y", "String"⟩, ⟨"/app/pw", "z", "SecureString"⟩,
          ⟨"/app/db", "x", "SecureString"⟩])
        (fun a => ([some ("key-of-" ++ a)], none)) [] ["/"]
      = Except.ok [("/app", some ⟨[("cache", "y"), ("pw", "z"), ("db", "x")], ["pw", "db"],
            some "key-of-/app/pw"⟩)] ∧
    ∃ t, buildFromSSMParameters
        (fun _ => [⟨"/app/cache", "y", "String"⟩, ⟨"/app/pw", "z", "SecureString"⟩,
          ⟨"/app/db", "x", "SecureString"⟩])
        (fun a => ([some ("key-of-" ++ a)], none)) [] ["/"] = Except.ok t :=
  ⟨rfl,
    (encrypted_keys_are_keys
      (fun _ => [⟨"/app/cache", "y", "String"⟩, ⟨"/app/pw", "z", "SecureString"⟩,
        ⟨"/app/db", "x", "SecureString"⟩])
      (fun a => ([some ("key-of-" ++ a)], none)) ["/"] _ rfl).1 (by decide) (fun a => ⟨_, _, rfl⟩)⟩

end SsmParameterStore
